import Mathlib

/-!
Verification of the `goproxy` cacher core (`cacher.go`).

The development shallowly embeds the Go code of `cacher.go`:

* the local disk is a total map `FileSystem := String → FsNode`, a path either
  being `absent`, a regular `file` (payload bytes, modification time, a
  readability bit standing for its permission mode), or a `dir`;
* Go errors are the inductive `GoError`; `os.IsNotExist` recognises exactly
  the not-exist error (on Linux an `ENOTDIR` from a file used as a directory
  is *not* a not-exist error, which the model reflects via `notDirectory`);
* the `path/filepath` functions used by `cacher.go` (`FromSlash`, `Join`,
  `Clean` inside `Join`, `Dir`) are modelled for a Unix host, where the
  separator is `'/'` and `FromSlash` is the identity: `clean` implements the
  documented Clean algorithm (drop empty and `.` segments, resolve `..`
  against the stack, keep leading `..` of relative paths, a rooted path never
  keeps `..`);
* `os.Open`, `os.MkdirAll` and `ioutil.WriteFile` are modelled on that map,
  including opening a directory successfully (as `os.Open` does), `ENOTDIR`
  when an ancestor of the path is a regular file, and `MkdirAll` creating
  every missing intermediate directory;
* `context.Context` is a value the code receives; `cacher.go` never reads it,
  and the model's `Context` is likewise an unused argument;
* mutation is explicit state passing: `Set` returns the resulting
  `FileSystem` next to its `error` result, the state being unchanged on the
  paths it did not touch;
* `os.TempDir()` is an explicit `tmpDir` argument, resolved by the caller at
  each call as the Go code does;
* `time` is a `Nat`; `Set` stamps the file with the current time `now`.
-/

set_option maxHeartbeats 1600000

deriving instance DecidableEq for Except

namespace Goproxy

/-- A byte payload, one `Nat` per byte. -/
abbrev Bytes := List Nat

/-- Go error values reachable in `cacher.go`: the sentinel `ErrCacheNotFound`
declared at the top of the file, the `os` errors recognised by
`os.IsNotExist` (`notExist` = `ENOENT`), permission errors, `EISDIR`,
`ENOTDIR`, and a generic I/O error (for instance one produced by the reader
handed to `Set`). -/
inductive GoError where
  | cacheNotFound
  | notExist
  | permission
  | isDirectory
  | notDirectory
  | ioError (code : Nat)
deriving DecidableEq

/-- Models `os.IsNotExist`: on Linux it recognises exactly `ENOENT`
(`ENOTDIR` is not a not-exist error). -/
def isNotExist (e : GoError) : Bool := e = GoError.notExist

/-- One node of the file system: nothing, a regular file (payload,
modification time, readable bit), or a directory. -/
inductive FsNode where
  | absent
  | file (data : Bytes) (mtime : Nat) (readable : Bool)
  | dir
deriving DecidableEq

/-- Whether a node is a regular file. -/
def FsNode.isFile : FsNode → Bool
  | .file _ _ _ => true
  | _ => false

/-- Modification time of a node (0 when it has none). -/
def FsNode.mtimeOf : FsNode → Nat
  | .file _ m _ => m
  | _ => 0

/-- The local disk: a total map from paths to nodes. -/
abbrev FileSystem := String → FsNode

/-- Point update of the disk map. -/
def FileSystem.setNode (fs : FileSystem) (p : String) (n : FsNode) : FileSystem :=
  fun q => if q = p then n else fs q

/-- The empty disk. -/
def emptyFS : FileSystem := fun _ => FsNode.absent

/-- Models `context.Context` as far as `cacher.go` could observe it: whether
cancellation has fired. The Go code never inspects its `ctx` argument. -/
structure Context where
  cancelled : Bool
deriving DecidableEq

/-! ## The `path/filepath` model (Unix host, separator `'/'`) -/

/-- Splits a character list on `'/'`, like `strings.Split`: `"a/b"` gives
`[a, b]`, a leading, trailing or doubled separator gives empty pieces. -/
def splitPath : List Char → List (List Char)
  | [] => [[]]
  | c :: rest =>
    if c = '/' then [] :: splitPath rest
    else
      match splitPath rest with
      | s :: ss => (c :: s) :: ss
      | [] => [[c]]

/-- Joins segments with `'/'`, like `strings.Join(segs, "/")`. -/
def joinSegs : List (List Char) → List Char
  | [] => []
  | [s] => s
  | s :: rest => s ++ '/' :: joinSegs rest

/-- The `..` segment. -/
def dotdot : List Char := ['.', '.']

/-- The core of `filepath.Clean`: processes the segments of a path left to
right over a stack `st`, dropping empty and `.` segments, resolving `..`
against the last stacked segment, keeping a leading `..` of a relative path
and discarding a `..` that would climb above the root of a rooted path. -/
def cleanSegs (rooted : Bool) : List (List Char) → List (List Char) → List (List Char)
  | st, [] => st
  | st, seg :: rest =>
    if seg = [] ∨ seg = ['.'] then cleanSegs rooted st rest
    else if seg = dotdot then
      if st ≠ [] ∧ st.getLast? ≠ some dotdot then cleanSegs rooted st.dropLast rest
      else if rooted then cleanSegs rooted st rest
      else cleanSegs rooted (st ++ [seg]) rest
    else cleanSegs rooted (st ++ [seg]) rest

/-- Renders a cleaned segment stack back into a path: a rooted path gets a
leading `'/'`; an empty relative result is `"."` as `filepath.Clean`
returns. -/
def renderPath (rooted : Bool) (segs : List (List Char)) : List Char :=
  if rooted then '/' :: joinSegs segs
  else if segs = [] then ['.'] else joinSegs segs

/-- Whether a path is rooted (starts with the separator). -/
def isRooted (cs : List Char) : Bool := cs.head? = some '/'

/-- `filepath.Clean` on characters: `Clean("") = "."`, otherwise split,
process the segments, render. -/
def cleanChars (cs : List Char) : List Char :=
  if cs = [] then ['.']
  else renderPath (isRooted cs) (cleanSegs (isRooted cs) [] (splitPath cs))

/-- Models `filepath.Clean`. -/
def clean (s : String) : String := String.mk (cleanChars s.data)

/-- Models `filepath.Join` on two elements: empty elements are skipped and
the result of joining the rest with the separator is cleaned;
`Join("", "") = ""`. -/
def goJoin (a b : String) : String :=
  if a = "" then (if b = "" then "" else clean b)
  else if b = "" then clean a
  else clean (a ++ "/" ++ b)

/-- Drops the characters after the last separator (keeping the separator),
the `i--` scan of `filepath.Dir`. -/
def dropLastSeg (cs : List Char) : List Char :=
  (cs.reverse.dropWhile (fun c => !(c == '/'))).reverse

/-- Models `filepath.Dir`: everything up to the final separator, cleaned;
`Dir` of a path without a separator is `"."`. -/
def goDir (s : String) : String := clean (String.mk (dropLastSeg s.data))

/-- Parses a path into its rooted flag and cleaned segment stack. -/
def parsePath (s : String) : Bool × List (List Char) :=
  (isRooted s.data, cleanSegs (isRooted s.data) [] (splitPath s.data))

/-- The strict ancestors of a path, as path strings: the renderings of the
proper front parts of its cleaned segment stack (for `"/a/b"` these are
`"/"` and `"/a"`). -/
def ancestorPaths (s : String) : List String :=
  (List.range (parsePath s).2.length).map
    (fun i => String.mk (renderPath (parsePath s).1 ((parsePath s).2.take i)))

/-- Whether some strict ancestor of the path is a regular file: path
resolution then fails with `ENOTDIR`. -/
def ancestorIsFile (fs : FileSystem) (s : String) : Bool :=
  (ancestorPaths s).any (fun p => (fs p).isFile)

/-- The paths whose directory always exists (`"/"` and the working
directory `"."`). -/
def isRootPath (s : String) : Bool := s == "/" || s == "."

/-! ## `os` and `io` primitives used by `cacher.go` -/

/-- An open handle: directory bit, file contents, the modification time
`Stat` reports, and the read/seek cursor. `os.Open` succeeds on a
directory (reads on it then fail), hence the `isDir` bit. -/
structure Handle where
  isDir : Bool
  data : Bytes
  mtime : Nat
  pos : Nat
deriving DecidableEq

/-- Models `os.Open` (read-only open): `ENOTDIR` when an ancestor is a
regular file, `ENOENT` when the path is absent, `EACCES` on an unreadable
file, a handle at offset 0 otherwise; opening a directory succeeds. -/
def osOpen (fs : FileSystem) (path : String) : Except GoError Handle :=
  if ancestorIsFile fs path then .error .notDirectory
  else
    match fs path with
    | .absent => .error .notExist
    | .file data mtime readable =>
      if readable then .ok { isDir := false, data := data, mtime := mtime, pos := 0 }
      else .error .permission
    | .dir => .ok { isDir := true, data := [], mtime := 0, pos := 0 }

/-- Models `File.Stat().ModTime()` on an open handle (an `fstat` on a valid
descriptor does not fail). -/
def fileStat (h : Handle) : Except GoError Nat := .ok h.mtime

/-- Models one step of `os.MkdirAll` along the cleaned segment chain of the
target: each next directory is created when absent, kept when already a
directory, and the walk fails with `ENOTDIR` when a regular file stands in
the way, exactly where `MkdirAll` stops. -/
def mkdirAllFrom (fs : FileSystem) (rooted : Bool) :
    List (List Char) → List (List Char) → Except GoError Unit × FileSystem
  | _, [] => (.ok (), fs)
  | done, seg :: rest =>
    match fs (String.mk (renderPath rooted (done ++ [seg]))) with
    | .file _ _ _ => (.error .notDirectory, fs)
    | .dir => mkdirAllFrom fs rooted (done ++ [seg]) rest
    | .absent =>
      mkdirAllFrom (fs.setNode (String.mk (renderPath rooted (done ++ [seg]))) .dir)
        rooted (done ++ [seg]) rest

/-- Models `os.MkdirAll(path, os.ModePerm)`: create every missing directory
of the cleaned chain of `path`. -/
def mkdirAll (fs : FileSystem) (path : String) : Except GoError Unit × FileSystem :=
  mkdirAllFrom fs (parsePath path).1 [] (parsePath path).2

/-- Models `ioutil.WriteFile(path, b, os.ModePerm)` (an
`O_WRONLY|O_CREATE|O_TRUNC` open followed by a full write): `ENOTDIR` when
an ancestor is a file, `EISDIR` when the path is a directory, `ENOENT` when
the parent directory is missing, otherwise the file is created or fully
replaced, readable, stamped `now`. -/
def writeFile (fs : FileSystem) (path : String) (b : Bytes) (now : Nat) :
    Except GoError Unit × FileSystem :=
  if ancestorIsFile fs path then (.error .notDirectory, fs)
  else
    match fs path with
    | .dir => (.error .isDirectory, fs)
    | _ =>
      if isRootPath (goDir path) ∨ fs (goDir path) = .dir then
        (.ok (), fs.setNode path (.file b now true))
      else (.error .notExist, fs)

/-- The byte source handed to `Set`: `ioutil.ReadAll` on it either drains it
to a full payload or fails with the reader's error. -/
structure Reader where
  result : Except GoError Bytes
deriving DecidableEq

/-- Models `ioutil.ReadAll(r)`. -/
def ioReadAll (r : Reader) : Except GoError Bytes := r.result

/-! ## `cacher.go` -/

/-- `LocalCacher` implements the `Cacher` by using the local disk
(`cacher.go` line 48). -/
structure LocalCacher where
  Root : String
deriving DecidableEq

/-- Models `filepath.FromSlash`: on a Unix host the separator is `'/'` and
`FromSlash` is the identity. -/
def fromSlash (s : String) : String := s

/-- `LocalCacher.localName` (`cacher.go` lines 99–106): convert the name to
native separators; a non-empty `Root` (converted likewise) or else
`os.TempDir()` is joined with it. `tmpDir` stands for the `os.TempDir()`
of this call. -/
def LocalCacher.localName (c : LocalCacher) (tmpDir : String) (name : String) : String :=
  let name := fromSlash name
  if c.Root ≠ "" then goJoin (fromSlash c.Root) name
  else goJoin tmpDir name

/-- `localCache` (`cacher.go` lines 109–113): a handle plus the immutable
name and modification time captured by `Get`. -/
structure localCache where
  file : Handle
  name : String
  modTime : Nat
deriving DecidableEq

/-- `LocalCacher.Get` (`cacher.go` lines 58–78): open the local name; map a
not-exist failure to `ErrCacheNotFound` and return any other open error
as-is; stat the handle and wrap it with the original name and that
modification time. The `ctx` argument is received and never read, as in the
source. -/
def LocalCacher.Get (c : LocalCacher) (tmpDir : String) (ctx : Context) (fs : FileSystem)
    (name : String) : Except GoError localCache :=
  match osOpen fs (c.localName tmpDir name) with
  | .error err => if isNotExist err then .error .cacheNotFound else .error err
  | .ok file =>
    match fileStat file with
    | .error err => .error err
    | .ok modTime => .ok { file := file, name := name, modTime := modTime }

/-- `LocalCacher.Set` (`cacher.go` lines 81–96): drain the reader fully (its
error is returned before anything touches the disk), `MkdirAll` the
directory of the local name, then `WriteFile` the payload there. The pair
result carries the explicit disk state after the call. The `ctx` argument
is received and never read, as in the source. -/
def LocalCacher.Set (c : LocalCacher) (tmpDir : String) (ctx : Context) (now : Nat)
    (fs : FileSystem) (name : String) (r : Reader) : Except GoError Unit × FileSystem :=
  match ioReadAll r with
  | .error err => (.error err, fs)
  | .ok b =>
    match mkdirAll fs (goDir (c.localName tmpDir name)) with
    | (.error err, fs1) => (.error err, fs1)
    | (.ok _, fs1) => writeFile fs1 (c.localName tmpDir name) b now

/-- Models `File.Read` through `localCache.Read` (`cacher.go` lines
116–118): reading a directory handle fails with `EISDIR`; otherwise up to
`n` bytes from the cursor are returned and the cursor advances; at
end-of-stream zero bytes come back (the `io.EOF` case). -/
def handleRead (h : Handle) (n : Nat) : Except GoError (Bytes × Handle) :=
  if h.isDir then .error .isDirectory
  else
    .ok ((h.data.drop h.pos).take n,
      { h with pos := h.pos + ((h.data.drop h.pos).take n).length })

/-- `localCache.Read` (`cacher.go` lines 116–118): forwards to the file
handle. -/
def localCache.Read (lc : localCache) (n : Nat) : Except GoError (Bytes × localCache) :=
  match handleRead lc.file n with
  | .error e => .error e
  | .ok (bs, h) => .ok (bs, { lc with file := h })

/-- Models `File.Seek`: whence 0/1/2 select start, current, end as the base
(`EINVAL`, code 22, otherwise); a negative final offset is `EINVAL`;
seeking past the end is allowed. -/
def handleSeek (h : Handle) (offset : Int) (whence : Nat) : Except GoError (Int × Handle) :=
  match (match whence with
         | 0 => some (0 : Int)
         | 1 => some (h.pos : Int)
         | 2 => some (h.data.length : Int)
         | _ => none) with
  | none => .error (.ioError 22)
  | some base =>
    if base + offset < 0 then .error (.ioError 22)
    else .ok (base + offset, { h with pos := (base + offset).toNat })

/-- `localCache.Seek` (`cacher.go` lines 121–123): forwards to the file
handle. -/
def localCache.Seek (lc : localCache) (offset : Int) (whence : Nat) :
    Except GoError (Int × localCache) :=
  match handleSeek lc.file offset whence with
  | .error e => .error e
  | .ok (p, h) => .ok (p, { lc with file := h })

/-- `localCache.Close` (`cacher.go` lines 126–128): forwards to the file
handle; descriptor release has no observable effect in the model. -/
def localCache.Close (lc : localCache) : Except GoError Unit := .ok ()

/-- `localCache.Name` (`cacher.go` lines 131–133). -/
def localCache.Name (lc : localCache) : String := lc.name

/-- `localCache.ModTime` (`cacher.go` lines 136–138): the snapshot stored at
construction; it takes no disk state, so later external writes cannot
refresh it. -/
def localCache.ModTime (lc : localCache) : Nat := lc.modTime

/-- A full read to end-of-stream, as `io/ioutil.ReadAll` performs on a
`Cache`: repeated `Read` calls of a 512-byte chunk until a read returns no
bytes; the first read of a directory handle fails. -/
def readAllFrom (h : Handle) : Except GoError Bytes :=
  if h.isDir then .error .isDirectory
  else
    if hc : (h.data.drop h.pos).take 512 = [] then .ok []
    else
      match readAllFrom { h with pos := h.pos + ((h.data.drop h.pos).take 512).length } with
      | .error e => .error e
      | .ok rest => .ok ((h.data.drop h.pos).take 512 ++ rest)
termination_by h.data.length - h.pos
decreasing_by
  have h1 : h.data.drop h.pos ≠ [] := by
    intro hnil
    exact hc (by simp [hnil])
  have h2 : h.pos < h.data.length := by
    by_contra hle
    exact h1 (List.drop_eq_nil_of_le (by omega))
  have h3 : 0 < ((h.data.drop h.pos).take 512).length := by
    cases hcl : (h.data.drop h.pos).take 512 with
    | nil => exact absurd hcl hc
    | cons a l => simp
  omega

/-- The payload translation of `strings.Replace`/spec reading of the path
translation: the name (already slash-separated on Unix) joined under the
root, the temporary directory standing in when the root is empty. Written
from the spec's words, for comparison with `LocalCacher.localName`. -/
def localNameSpec (root tmpDir name : String) : String :=
  if root = "" then goJoin tmpDir (fromSlash name)
  else goJoin (fromSlash root) (fromSlash name)

/-! ## Canonical form of cleaned paths -/

/-- A segment that can appear in a cleaned stack: non-empty, free of the
separator, and not `"."`. -/
def isCanonSeg (s : List Char) : Prop := s ≠ [] ∧ '/' ∉ s ∧ s ≠ ['.']

/-- The canonical shape of the output of `cleanSegs`: every segment is
canonical, the `..` segments form a front block, and a rooted path has
none. -/
def CanonStack (rooted : Bool) (segs : List (List Char)) : Prop :=
  (∀ s ∈ segs, isCanonSeg s) ∧
  ∃ k ys, segs = List.replicate k dotdot ++ ys ∧ (∀ s ∈ ys, s ≠ dotdot) ∧
    (rooted = true → k = 0)

/-- The segments `cleanSegs` keeps from a `..`-free suffix: everything but
the empty and `"."` segments. -/
def keepSegs (ys : List (List Char)) : List (List Char) :=
  ys.filter (fun s => !decide (s = [] ∨ s = ['.']))

/-! ## Behaviour of a full read -/

/-- Auxiliary induction for `readAllFrom_ok`, on a bound of the remaining
byte count. -/
theorem readAllFrom_ok_aux (n : Nat) : ∀ h : Handle, h.data.length - h.pos ≤ n →
    h.isDir = false → readAllFrom h = .ok (h.data.drop h.pos) := by
  induction n with
  | zero =>
    intro h hle hd
    have hnil : h.data.drop h.pos = [] := List.drop_eq_nil_of_le (by omega)
    rw [readAllFrom]
    simp [hd, hnil]
  | succ n ih =>
    intro h hle hd
    rw [readAllFrom]
    simp only [hd, Bool.false_eq_true, if_false]
    split
    · rename_i hc
      rcases (List.take_eq_nil_iff).mp hc with h512 | hnil
      · omega
      · simp [hnil]
    · rename_i hc
      have hne : h.data.drop h.pos ≠ [] := fun hnil => hc (by simp [hnil])
      have hpos : h.pos < h.data.length := by
        by_contra hge
        exact hne (List.drop_eq_nil_of_le (by omega))
      have hlen : 0 < ((h.data.drop h.pos).take 512).length := by
        cases hcl : (h.data.drop h.pos).take 512 with
        | nil => exact absurd hcl hc
        | cons a l => simp
      have hrec : readAllFrom
          { h with pos := h.pos + ((h.data.drop h.pos).take 512).length }
            = .ok (h.data.drop (h.pos + ((h.data.drop h.pos).take 512).length)) := by
        refine ih _ ?_ hd
        show h.data.length - (h.pos + ((h.data.drop h.pos).take 512).length) ≤ n
        omega
      simp only [hd] at hrec
      rw [hrec]
      have hdropdrop : h.data.drop (h.pos + ((h.data.drop h.pos).take 512).length)
          = (h.data.drop h.pos).drop ((h.data.drop h.pos).take 512).length := by
        rw [List.drop_drop]
      have htd : ((h.data.drop h.pos).take 512).length = min 512 (h.data.drop h.pos).length :=
        List.length_take 512 (h.data.drop h.pos)
      have hdrop512 : (h.data.drop h.pos).drop ((h.data.drop h.pos).take 512).length
          = (h.data.drop h.pos).drop 512 := by
        rw [htd]
        rcases Nat.le_total 512 (h.data.drop h.pos).length with hle2 | hle2
        · rw [Nat.min_eq_left hle2]
        · rw [Nat.min_eq_right hle2, List.drop_length, List.drop_eq_nil_of_le hle2]
      rw [hdropdrop, hdrop512]
      exact congrArg Except.ok (List.take_append_drop 512 (h.data.drop h.pos))

/-- A full read of a non-directory handle returns the bytes from the cursor
to end-of-stream. -/
theorem readAllFrom_ok (h : Handle) (hd : h.isDir = false) :
    readAllFrom h = .ok (h.data.drop h.pos) :=
  readAllFrom_ok_aux (h.data.length - h.pos) h le_rfl hd

/-! ## Splitting and joining path segments -/

/-- Splitting never produces the empty list of pieces. -/
theorem splitPath_ne_nil (cs : List Char) : splitPath cs ≠ [] := by
  cases cs with
  | nil => simp [splitPath]
  | cons c rest =>
    rw [splitPath]
    split
    · simp
    · split <;> simp

/-- Step equation of `splitPath` for a non-separator head. -/
theorem splitPath_cons_of_ne (c : Char) (rest : List Char) (h : ¬c = '/')
    (s : List Char) (ss : List (List Char)) (heq : splitPath rest = s :: ss) :
    splitPath (c :: rest) = (c :: s) :: ss := by
  rw [splitPath, if_neg h, heq]

/-- Step equation of `splitPath` for a separator head. -/
theorem splitPath_cons_slash (rest : List Char) :
    splitPath ('/' :: rest) = [] :: splitPath rest := by
  rw [splitPath, if_pos rfl]

/-- Every piece produced by `splitPath` is free of the separator. -/
theorem splitPath_slashFree : ∀ (cs : List Char), ∀ p ∈ splitPath cs, '/' ∉ p := by
  intro cs
  induction cs with
  | nil =>
    intro p hp
    simp [splitPath] at hp
    simp [hp]
  | cons c rest ih =>
    intro p hp
    by_cases h : c = '/'
    · subst h
      rw [splitPath_cons_slash] at hp
      rcases List.mem_cons.mp hp with hp | hp
      · simp [hp]
      · exact ih p hp
    · obtain ⟨s, ss, heq⟩ : ∃ s ss, splitPath rest = s :: ss := by
        cases hsp : splitPath rest with
        | nil => exact absurd hsp (splitPath_ne_nil rest)
        | cons a l => exact ⟨a, l, rfl⟩
      rw [splitPath_cons_of_ne c rest h s ss heq] at hp
      rcases List.mem_cons.mp hp with hp | hp
      · subst hp
        intro hmem
        rcases List.mem_cons.mp hmem with hmem | hmem
        · exact h hmem.symm
        · exact ih s (heq ▸ List.mem_cons_self s ss) hmem
      · exact ih p (heq ▸ List.mem_cons_of_mem s hp)

/-- `splitPath` distributes over a separator between two halves. -/
theorem splitPath_append_slash : ∀ (xs ys : List Char),
    splitPath (xs ++ '/' :: ys) = splitPath xs ++ splitPath ys := by
  intro xs ys
  induction xs with
  | nil => simp [splitPath_cons_slash, splitPath]
  | cons c rest ih =>
    by_cases h : c = '/'
    · subst h
      rw [List.cons_append, splitPath_cons_slash, splitPath_cons_slash, ih, List.cons_append]
    · obtain ⟨s, ss, heq⟩ : ∃ s ss, splitPath rest = s :: ss := by
        cases hsp : splitPath rest with
        | nil => exact absurd hsp (splitPath_ne_nil rest)
        | cons a l => exact ⟨a, l, rfl⟩
      have h2 : splitPath (rest ++ '/' :: ys) = s :: (ss ++ splitPath ys) := by
        rw [ih, heq, List.cons_append]
      rw [List.cons_append, splitPath_cons_of_ne c (rest ++ '/' :: ys) h _ _ h2,
        splitPath_cons_of_ne c rest h s ss heq, List.cons_append]

/-- A separator-free character list splits into itself alone. -/
theorem splitPath_of_slashFree (s : List Char) (h : '/' ∉ s) : splitPath s = [s] := by
  induction s with
  | nil => rfl
  | cons c rest ih =>
    have hc : ¬c = '/' := fun hh => h (by simp [hh])
    have hrest : '/' ∉ rest := fun hm => h (List.mem_cons_of_mem c hm)
    exact splitPath_cons_of_ne c rest hc rest [] (ih hrest)

/-- `joinSegs` on two or more segments. -/
theorem joinSegs_cons_cons (s t : List Char) (rest : List (List Char)) :
    joinSegs (s :: t :: rest) = s ++ '/' :: joinSegs (t :: rest) := rfl

/-- `joinSegs` pulls out a last segment. -/
theorem joinSegs_concat (ys : List (List Char)) (t : List Char) (h : ys ≠ []) :
    joinSegs (ys ++ [t]) = joinSegs ys ++ '/' :: t := by
  induction ys with
  | nil => cases h rfl
  | cons s rest ih =>
    cases rest with
    | nil => rfl
    | cons r rs =>
      have h0 : (s :: r :: rs) ++ [t] = s :: r :: (rs ++ [t]) := by simp
      have h1 : r :: (rs ++ [t]) = (r :: rs) ++ [t] := by simp
      rw [h0, joinSegs_cons_cons, h1, ih (by simp), joinSegs_cons_cons]
      simp

/-- `joinSegs` of a non-empty list starts with its first segment. -/
theorem joinSegs_head (s : List Char) (rest : List (List Char)) :
    ∃ x, joinSegs (s :: rest) = s ++ x := by
  cases rest with
  | nil => exact ⟨[], by simp [joinSegs]⟩
  | cons t rs => exact ⟨'/' :: joinSegs (t :: rs), rfl⟩

/-- Splitting is a retraction of joining on separator-free segments. -/
theorem splitPath_joinSegs : ∀ (segs : List (List Char)), segs ≠ [] →
    (∀ s ∈ segs, '/' ∉ s) → splitPath (joinSegs segs) = segs := by
  intro segs
  induction segs with
  | nil => intro h; cases h rfl
  | cons s rest ih =>
    intro _ hsf
    cases rest with
    | nil => exact splitPath_of_slashFree s (hsf s (List.mem_cons_self s []))
    | cons t rs =>
      rw [joinSegs_cons_cons, splitPath_append_slash,
        splitPath_of_slashFree s (hsf s (List.mem_cons_self s (t :: rs))),
        ih (by simp) (fun x hx => hsf x (List.mem_cons_of_mem s hx)), List.cons_append,
        List.nil_append]

/-! ## Step equations and canonical form of `cleanSegs` -/

/-- `cleanSegs` skips an empty or `"."` segment. -/
theorem cleanSegs_cons_skip (rooted : Bool) (st : List (List Char)) (seg : List Char)
    (rest : List (List Char)) (h : seg = [] ∨ seg = ['.']) :
    cleanSegs rooted st (seg :: rest) = cleanSegs rooted st rest := by
  rw [cleanSegs, if_pos h]

/-- `cleanSegs` pops the stack at a `..` when the last stacked segment is a
real one. -/
theorem cleanSegs_cons_pop (rooted : Bool) (st : List (List Char)) (seg : List Char)
    (rest : List (List Char)) (h1 : ¬(seg = [] ∨ seg = ['.'])) (h2 : seg = dotdot)
    (h3 : st ≠ [] ∧ st.getLast? ≠ some dotdot) :
    cleanSegs rooted st (seg :: rest) = cleanSegs rooted st.dropLast rest := by
  rw [cleanSegs, if_neg h1, if_pos h2, if_pos h3]

/-- A rooted path discards a `..` that cannot pop. -/
theorem cleanSegs_cons_rootdrop (st : List (List Char)) (seg : List Char)
    (rest : List (List Char)) (h1 : ¬(seg = [] ∨ seg = ['.'])) (h2 : seg = dotdot)
    (h3 : ¬(st ≠ [] ∧ st.getLast? ≠ some dotdot)) :
    cleanSegs true st (seg :: rest) = cleanSegs true st rest := by
  rw [cleanSegs, if_neg h1, if_pos h2, if_neg h3, if_pos rfl]

/-- A relative path keeps a `..` that cannot pop. -/
theorem cleanSegs_cons_ddpush (st : List (List Char)) (seg : List Char)
    (rest : List (List Char)) (h1 : ¬(seg = [] ∨ seg = ['.'])) (h2 : seg = dotdot)
    (h3 : ¬(st ≠ [] ∧ st.getLast? ≠ some dotdot)) :
    cleanSegs false st (seg :: rest) = cleanSegs false (st ++ [seg]) rest := by
  rw [cleanSegs, if_neg h1, if_pos h2, if_neg h3]
  simp

/-- `cleanSegs` pushes a normal segment. -/
theorem cleanSegs_cons_push (rooted : Bool) (st : List (List Char)) (seg : List Char)
    (rest : List (List Char)) (h1 : ¬(seg = [] ∨ seg = ['.'])) (h2 : ¬seg = dotdot) :
    cleanSegs rooted st (seg :: rest) = cleanSegs rooted (st ++ [seg]) rest := by
  rw [cleanSegs, if_neg h1, if_neg h2]

/-- `cleanSegs` splits over an append of inputs. -/
theorem cleanSegs_append (rooted : Bool) : ∀ (xs ys st : List (List Char)),
    cleanSegs rooted st (xs ++ ys) = cleanSegs rooted (cleanSegs rooted st xs) ys := by
  intro xs
  induction xs with
  | nil => intro ys st; rfl
  | cons seg rest ih =>
    intro ys st
    by_cases h1 : seg = [] ∨ seg = ['.']
    · rw [List.cons_append, cleanSegs_cons_skip rooted st seg _ h1,
        cleanSegs_cons_skip rooted st seg rest h1, ih]
    · by_cases h2 : seg = dotdot
      · by_cases h3 : st ≠ [] ∧ st.getLast? ≠ some dotdot
        · rw [List.cons_append, cleanSegs_cons_pop rooted st seg _ h1 h2 h3,
            cleanSegs_cons_pop rooted st seg rest h1 h2 h3, ih]
        · cases rooted with
          | true =>
            rw [List.cons_append, cleanSegs_cons_rootdrop st seg _ h1 h2 h3,
              cleanSegs_cons_rootdrop st seg rest h1 h2 h3, ih]
          | false =>
            rw [List.cons_append, cleanSegs_cons_ddpush st seg _ h1 h2 h3,
              cleanSegs_cons_ddpush st seg rest h1 h2 h3, ih]
      · rw [List.cons_append, cleanSegs_cons_push rooted st seg _ h1 h2,
          cleanSegs_cons_push rooted st seg rest h1 h2, ih]

/-- `keepSegs` drops a skipped head. -/
theorem keepSegs_cons_skip (seg : List Char) (rest : List (List Char))
    (h : seg = [] ∨ seg = ['.']) : keepSegs (seg :: rest) = keepSegs rest := by
  simp only [keepSegs, List.filter_cons]
  simp only [decide_eq_true h, Bool.not_true]
  rfl

/-- `keepSegs` keeps a normal head. -/
theorem keepSegs_cons_keep (seg : List Char) (rest : List (List Char))
    (h : ¬(seg = [] ∨ seg = ['.'])) : keepSegs (seg :: rest) = seg :: keepSegs rest := by
  simp only [keepSegs, List.filter_cons]
  simp only [decide_eq_false h, Bool.not_false]
  rfl

/-- Over a `..`-free input, `cleanSegs` appends the kept segments to any
stack. -/
theorem cleanSegs_no_dotdot (rooted : Bool) : ∀ (ys st : List (List Char)),
    (∀ s ∈ ys, s ≠ dotdot) → cleanSegs rooted st ys = st ++ keepSegs ys := by
  intro ys
  induction ys with
  | nil => intro st _; simp [cleanSegs, keepSegs]
  | cons seg rest ih =>
    intro st h
    by_cases h1 : seg = [] ∨ seg = ['.']
    · rw [cleanSegs_cons_skip rooted st seg rest h1, keepSegs_cons_skip seg rest h1,
        ih st (fun x hx => h x (List.mem_cons_of_mem seg hx))]
    · have h2 : ¬seg = dotdot := h seg (List.mem_cons_self seg rest)
      rw [cleanSegs_cons_push rooted st seg rest h1 h2, keepSegs_cons_keep seg rest h1,
        ih (st ++ [seg]) (fun x hx => h x (List.mem_cons_of_mem seg hx))]
      simp

/-- The kept segments of an all-canonical list are the list itself. -/
theorem keepSegs_of_canon (ys : List (List Char)) (h : ∀ s ∈ ys, isCanonSeg s) :
    keepSegs ys = ys := by
  induction ys with
  | nil => rfl
  | cons seg rest ih =>
    have hc := h seg (List.mem_cons_self seg rest)
    have h1 : ¬(seg = [] ∨ seg = ['.']) := by
      rcases hc with ⟨hne, _, hnd⟩
      rintro (hh | hh)
      · exact hne hh
      · exact hnd hh
    rw [keepSegs_cons_keep seg rest h1, ih (fun x hx => h x (List.mem_cons_of_mem seg hx))]

/-- A block of `..` segments passes through `cleanSegs` of a relative path
whenever the stack is empty or already ends in `..`. -/
theorem cleanSegs_dotdots : ∀ (k : Nat) (st : List (List Char)),
    (st = [] ∨ st.getLast? = some dotdot) →
    cleanSegs false st (List.replicate k dotdot) = st ++ List.replicate k dotdot := by
  intro k
  induction k with
  | zero => intro st _; simp [cleanSegs]
  | succ k ih =>
    intro st h
    have h1 : ¬(dotdot = [] ∨ dotdot = ['.']) := by decide
    have h3 : ¬(st ≠ [] ∧ st.getLast? ≠ some dotdot) := by
      rcases h with h | h
      · intro hc; exact hc.1 h
      · intro hc; exact hc.2 h
    rw [List.replicate_succ, cleanSegs_cons_ddpush st dotdot _ h1 rfl h3,
      ih (st ++ [dotdot]) (Or.inr (by simp))]
    simp

/-- The empty stack is canonical. -/
theorem canonStack_nil (rooted : Bool) : CanonStack rooted [] := by
  refine ⟨by simp, 0, [], by simp, by simp, fun _ => rfl⟩

/-- Pushing a canonical non-`..` segment preserves canonicality. -/
theorem canonStack_push (rooted : Bool) (st : List (List Char)) (seg : List Char)
    (h : CanonStack rooted st) (hc : isCanonSeg seg) (hd : ¬seg = dotdot) :
    CanonStack rooted (st ++ [seg]) := by
  obtain ⟨hall, k, ys, hshape, hys, hk⟩ := h
  refine ⟨?_, k, ys ++ [seg], by rw [hshape]; simp, ?_, hk⟩
  · intro s hs
    rcases List.mem_append.mp hs with hs | hs
    · exact hall s hs
    · rw [List.mem_singleton.mp hs]; exact hc
  · intro s hs
    rcases List.mem_append.mp hs with hs | hs
    · exact hys s hs
    · rw [List.mem_singleton.mp hs]; exact hd

/-- Pushing `..` onto a stack that is empty or all-`..` (the non-pop case of
a relative path) preserves canonicality. -/
theorem canonStack_ddpush (st : List (List Char)) (h : CanonStack false st)
    (hcond : ¬(st ≠ [] ∧ st.getLast? ≠ some dotdot)) : CanonStack false (st ++ [dotdot]) := by
  obtain ⟨hall, k, ys, hshape, hys, _⟩ := h
  subst hshape
  have hys_nil : ys = [] := by
    by_contra hne
    have hlast : (List.replicate k dotdot ++ ys).getLast? = some (ys.getLast hne) := by
      rw [List.getLast?_append_of_ne_nil _ hne, List.getLast?_eq_getLast ys hne]
    have hmem : ys.getLast hne ∈ ys := List.getLast_mem hne
    rcases Classical.em (List.replicate k dotdot ++ ys = []) with hst | hst
    · rw [hst] at hlast; cases hlast
    · have := Classical.byContradiction
        (fun hcc : ¬(List.replicate k dotdot ++ ys).getLast? = some dotdot => hcond ⟨hst, hcc⟩)
      rw [hlast] at this
      exact hys _ hmem (Option.some.inj this)
  subst hys_nil
  refine ⟨?_, k + 1, [], ?_, by simp, by intro hh; cases hh⟩
  · intro s hs
    rcases List.mem_append.mp hs with hs | hs
    · exact hall s hs
    · rw [List.mem_singleton.mp hs]
      exact ⟨by decide, by decide, by decide⟩
  · simp [List.replicate_succ']

/-- Popping a real (non-`..`) last segment preserves canonicality. -/
theorem canonStack_dropLast (rooted : Bool) (st : List (List Char))
    (h : CanonStack rooted st) (hcond : st ≠ [] ∧ st.getLast? ≠ some dotdot) :
    CanonStack rooted st.dropLast := by
  obtain ⟨hall, k, ys, hshape, hys, hk⟩ := h
  have hys_ne : ys ≠ [] := by
    intro hnil
    subst hnil
    rcases Nat.eq_zero_or_pos k with hz | hp
    · subst hz
      simp at hshape
      exact hcond.1 hshape
    · apply hcond.2
      rw [hshape]
      simp only [List.append_nil]
      have : List.replicate k dotdot = List.replicate (k - 1) dotdot ++ [dotdot] := by
        conv_lhs => rw [show k = (k - 1) + 1 from by omega]
        exact List.replicate_succ' ..
      rw [this, List.getLast?_concat]
  refine ⟨?_, k, ys.dropLast, ?_, fun s hs => hys s (List.dropLast_subset ys hs), hk⟩
  · intro s hs
    exact hall s (List.dropLast_subset st hs)
  · rw [hshape, List.dropLast_append_of_ne_nil _ hys_ne]

/-- The output of `cleanSegs` on separator-free input over a canonical stack
is canonical. -/
theorem cleanSegs_canon (rooted : Bool) : ∀ (segs st : List (List Char)),
    (∀ s ∈ segs, '/' ∉ s) → CanonStack rooted st →
    CanonStack rooted (cleanSegs rooted st segs) := by
  intro segs
  induction segs with
  | nil => intro st _ hst; exact hst
  | cons seg rest ih =>
    intro st hsf hst
    have hsub : ∀ s ∈ rest, '/' ∉ s := fun s hs => hsf s (List.mem_cons_of_mem seg hs)
    by_cases h1 : seg = [] ∨ seg = ['.']
    · rw [cleanSegs_cons_skip rooted st seg rest h1]
      exact ih st hsub hst
    · by_cases h2 : seg = dotdot
      · by_cases h3 : st ≠ [] ∧ st.getLast? ≠ some dotdot
        · rw [cleanSegs_cons_pop rooted st seg rest h1 h2 h3]
          exact ih _ hsub (canonStack_dropLast rooted st hst h3)
        · cases rooted with
          | true =>
            rw [cleanSegs_cons_rootdrop st seg rest h1 h2 h3]
            exact ih st hsub hst
          | false =>
            rw [cleanSegs_cons_ddpush st seg rest h1 h2 h3, h2]
            exact ih _ hsub (canonStack_ddpush st hst h3)
      · rw [cleanSegs_cons_push rooted st seg rest h1 h2]
        refine ih _ hsub (canonStack_push rooted st seg hst ?_ h2)
        refine ⟨fun hh => h1 (Or.inl hh), hsf seg (List.mem_cons_self seg rest), fun hh => h1 (Or.inr hh)⟩

/-- `cleanSegs` over the empty stack is the identity on a canonical stack. -/
theorem cleanSegs_id (rooted : Bool) (segs : List (List Char)) (h : CanonStack rooted segs) :
    cleanSegs rooted [] segs = segs := by
  obtain ⟨hall, k, ys, hshape, hys, hk⟩ := h
  subst hshape
  cases rooted with
  | true =>
    rw [hk rfl]
    simp only [List.replicate, List.nil_append]
    rw [cleanSegs_no_dotdot true ys [] hys, keepSegs_of_canon ys (fun s hs => hall s (by simp [hs]))]
    simp
  | false =>
    rw [cleanSegs_append false (List.replicate k dotdot) ys [],
      cleanSegs_dotdots k [] (Or.inl rfl), List.nil_append,
      cleanSegs_no_dotdot false ys _ hys,
      keepSegs_of_canon ys (fun s hs => hall s (by simp [hs]))]

/-! ## Parsing and rendering canonical paths -/

/-- Rendering respects the rooted flag on canonical segments. -/
theorem isRooted_renderPath (rooted : Bool) (segs : List (List Char))
    (h : ∀ s ∈ segs, isCanonSeg s) : isRooted (renderPath rooted segs) = rooted := by
  cases rooted with
  | true => simp [renderPath, isRooted]
  | false =>
    cases segs with
    | nil => simp [renderPath, isRooted]
    | cons s rest =>
      obtain ⟨x, hx⟩ := joinSegs_head s rest
      obtain ⟨hne, hsf, _⟩ := h s (List.mem_cons_self s rest)
      have hrp : renderPath false (s :: rest) = joinSegs (s :: rest) := by
        simp [renderPath]
      rw [hrp, hx]
      cases s with
      | nil => cases hne rfl
      | cons c cs =>
        have hc : ¬c = '/' := fun hh => hsf (by simp [hh])
        simp [isRooted, hc]

/-- Parsing is a retraction of rendering on canonical stacks. -/
theorem parsePath_renderPath (rooted : Bool) (segs : List (List Char))
    (h : CanonStack rooted segs) :
    parsePath (String.mk (renderPath rooted segs)) = (rooted, segs) := by
  have hall := h.1
  unfold parsePath
  have hdata : (String.mk (renderPath rooted segs)).data = renderPath rooted segs := rfl
  rw [hdata, isRooted_renderPath rooted segs hall]
  refine congrArg (Prod.mk rooted) ?_
  cases rooted with
  | true =>
    cases segs with
    | nil => rfl
    | cons s rest =>
      have hjoin : splitPath (joinSegs (s :: rest)) = s :: rest :=
        splitPath_joinSegs (s :: rest) (by simp) (fun x hx => (hall x hx).2.1)
      have hrp : renderPath true (s :: rest) = '/' :: joinSegs (s :: rest) := by
        simp [renderPath]
      rw [hrp, splitPath_cons_slash, hjoin,
        cleanSegs_cons_skip true [] [] (s :: rest) (Or.inl rfl)]
      exact cleanSegs_id true (s :: rest) h
  | false =>
    cases segs with
    | nil => rfl
    | cons s rest =>
      have hjoin : splitPath (joinSegs (s :: rest)) = s :: rest :=
        splitPath_joinSegs (s :: rest) (by simp) (fun x hx => (hall x hx).2.1)
      have hrp : renderPath false (s :: rest) = joinSegs (s :: rest) := by
        simp [renderPath]
      rw [hrp, hjoin]
      exact cleanSegs_id false (s :: rest) h

/-- The parse of any string is canonical. -/
theorem parsePath_canon (s : String) : CanonStack (parsePath s).1 (parsePath s).2 :=
  cleanSegs_canon (isRooted s.data) (splitPath s.data) [] (splitPath_slashFree s.data)
    (canonStack_nil (isRooted s.data))

/-- `clean` renders the parse of its input. -/
theorem clean_renderPath (s : String) :
    clean s = String.mk (renderPath (parsePath s).1 (parsePath s).2) := by
  by_cases h : s.data = []
  · cases s with
    | mk d =>
      have hd : d = [] := h
      subst hd
      rfl
  · unfold clean cleanChars
    rw [if_neg h]
    rfl

/-- Cleaning does not change the parse. -/
theorem parsePath_clean (s : String) : parsePath (clean s) = parsePath s := by
  rw [clean_renderPath s]
  exact parsePath_renderPath _ _ (parsePath_canon s)

/-- Rendering is injective on canonical stacks. -/
theorem renderPath_inj (r1 r2 : Bool) (s1 s2 : List (List Char))
    (h1 : CanonStack r1 s1) (h2 : CanonStack r2 s2)
    (heq : String.mk (renderPath r1 s1) = String.mk (renderPath r2 s2)) :
    r1 = r2 ∧ s1 = s2 := by
  have h := congrArg parsePath heq
  rw [parsePath_renderPath r1 s1 h1, parsePath_renderPath r2 s2 h2] at h
  exact ⟨congrArg Prod.fst h, congrArg Prod.snd h⟩

/-- A front part of a canonical stack is canonical. -/
theorem canonStack_take (rooted : Bool) (segs : List (List Char)) (i : Nat)
    (h : CanonStack rooted segs) : CanonStack rooted (segs.take i) := by
  obtain ⟨hall, k, ys, hshape, hys, hk⟩ := h
  subst hshape
  refine ⟨fun s hs => hall s (List.take_subset i _ hs), min i k, ys.take (i - k), ?_,
    fun s hs => hys s (List.take_subset _ _ hs), fun hr => by rw [hk hr]; simp⟩
  rw [List.take_append_eq_append_take, List.take_replicate, List.length_replicate]

/-- Appending canonical non-`..` segments preserves canonicality. -/
theorem canonStack_append (rooted : Bool) (st extra : List (List Char))
    (h : CanonStack rooted st) (hex : ∀ s ∈ extra, isCanonSeg s ∧ s ≠ dotdot) :
    CanonStack rooted (st ++ extra) := by
  obtain ⟨hall, k, ys, hshape, hys, hk⟩ := h
  subst hshape
  refine ⟨?_, k, ys ++ extra, by simp, ?_, hk⟩
  · intro s hs
    rcases List.mem_append.mp hs with hs | hs
    · exact hall s hs
    · exact (hex s hs).1
  · intro s hs
    rcases List.mem_append.mp hs with hs | hs
    · exact hys s hs
    · exact (hex s hs).2

/-! ## The directory of a canonical path -/

/-- A rendered path is never the empty string. -/
theorem renderPath_ne_nil (rooted : Bool) (segs : List (List Char))
    (h : ∀ s ∈ segs, isCanonSeg s) : renderPath rooted segs ≠ [] := by
  cases rooted with
  | true => simp [renderPath]
  | false =>
    cases segs with
    | nil => simp [renderPath]
    | cons s rest =>
      obtain ⟨x, hx⟩ := joinSegs_head s rest
      obtain ⟨hne, _, _⟩ := h s (List.mem_cons_self s rest)
      have hrp : renderPath false (s :: rest) = joinSegs (s :: rest) := by
        simp [renderPath]
      rw [hrp, hx]
      simp [hne]

/-- The separator scan of `filepath.Dir` empties a separator-free input. -/
theorem dropLastSeg_of_slashFree (s : List Char) (h : '/' ∉ s) : dropLastSeg s = [] := by
  unfold dropLastSeg
  have hnil : s.reverse.dropWhile (fun c => !(c == '/')) = [] := by
    rw [List.dropWhile_eq_nil_iff]
    intro x hx
    have hxs : x ∈ s := List.mem_reverse.mp hx
    have : ¬x = '/' := fun hh => h (hh ▸ hxs)
    simp [this]
  rw [hnil]
  rfl

/-- The separator scan keeps everything up to the last separator. -/
theorem dropLastSeg_append (xs t : List Char) (h : '/' ∉ t) :
    dropLastSeg (xs ++ '/' :: t) = xs ++ ['/'] := by
  unfold dropLastSeg
  rw [List.reverse_append, List.reverse_cons, List.append_assoc]
  have h1 : t.reverse.dropWhile (fun c => !(c == '/')) = [] := by
    rw [List.dropWhile_eq_nil_iff]
    intro x hx
    have hxs : x ∈ t := List.mem_reverse.mp hx
    have : ¬x = '/' := fun hh => h (hh ▸ hxs)
    simp [this]
  rw [List.dropWhile_append, h1]
  simp

/-- `clean` strips a trailing separator off a canonical rendering. -/
theorem clean_renderPath_slash (rooted : Bool) (ys : List (List Char))
    (h : CanonStack rooted ys) :
    clean (String.mk (renderPath rooted ys ++ ['/'])) = String.mk (renderPath rooted ys) := by
  unfold clean cleanChars
  have hrne := renderPath_ne_nil rooted ys h.1
  have hne : ¬(String.mk (renderPath rooted ys ++ ['/'])).data = [] := by simp
  rw [if_neg hne]
  have hdata : (String.mk (renderPath rooted ys ++ ['/'])).data
      = renderPath rooted ys ++ ['/'] := rfl
  have hroot : isRooted (renderPath rooted ys ++ ['/']) = rooted := by
    have h0 : isRooted (renderPath rooted ys) = rooted := isRooted_renderPath rooted ys h.1
    cases hr : renderPath rooted ys with
    | nil => exact absurd hr hrne
    | cons a l =>
      rw [hr] at h0
      simpa [isRooted] using h0
  have hsplit : splitPath (renderPath rooted ys ++ ['/'])
      = splitPath (renderPath rooted ys) ++ [[]] := by
    have hs := splitPath_append_slash (renderPath rooted ys) []
    simpa [splitPath] using hs
  rw [hdata, hroot, hsplit, cleanSegs_append]
  have hparse := parsePath_renderPath rooted ys h
  have hcl : cleanSegs rooted [] (splitPath (renderPath rooted ys)) = ys := by
    have h2 := congrArg Prod.snd hparse
    unfold parsePath at h2
    rw [show (String.mk (renderPath rooted ys)).data = renderPath rooted ys from rfl,
      isRooted_renderPath rooted ys h.1] at h2
    exact h2
  rw [hcl, cleanSegs_cons_skip rooted ys [] [] (Or.inl rfl)]
  rfl

/-- `filepath.Dir` of a canonical rendering drops the last segment. -/
theorem goDir_renderPath (rooted : Bool) (segs : List (List Char)) (h : CanonStack rooted segs) :
    goDir (String.mk (renderPath rooted segs)) = String.mk (renderPath rooted segs.dropLast) := by
  rcases List.eq_nil_or_concat segs with rfl | ⟨ys, t, hc⟩
  · cases rooted <;> rfl
  · rw [List.concat_eq_append] at hc
    subst hc
    have hys : CanonStack rooted ys := by
      have := canonStack_take rooted (ys ++ [t]) ys.length h
      rwa [List.take_left] at this
    obtain ⟨_, htsf, _⟩ := h.1 t (by simp)
    have hdrop : (ys ++ [t]).dropLast = ys := by simp
    by_cases hyne : ys = []
    · subst hyne
      cases rooted with
      | true =>
        have hr : renderPath true ([] ++ [t]) = [] ++ '/' :: t := by
          simp [renderPath, joinSegs]
        unfold goDir
        rw [show (String.mk (renderPath true ([] ++ [t]))).data
            = renderPath true ([] ++ [t]) from rfl, hr, dropLastSeg_append [] t htsf, hdrop]
        rfl
      | false =>
        have hr : renderPath false ([] ++ [t]) = t := by
          simp [renderPath, joinSegs]
        unfold goDir
        rw [show (String.mk (renderPath false ([] ++ [t]))).data
            = renderPath false ([] ++ [t]) from rfl, hr, dropLastSeg_of_slashFree t htsf, hdrop]
        rfl
    · have hjoin : joinSegs (ys ++ [t]) = joinSegs ys ++ '/' :: t := joinSegs_concat ys t hyne
      have hform : renderPath rooted (ys ++ [t]) = renderPath rooted ys ++ '/' :: t := by
        cases rooted with
        | true =>
          have h1 : renderPath true (ys ++ [t]) = '/' :: joinSegs (ys ++ [t]) := by
            simp [renderPath]
          have h2 : renderPath true ys = '/' :: joinSegs ys := by simp [renderPath]
          rw [h1, h2, hjoin]
          rfl
        | false =>
          have h1 : renderPath false (ys ++ [t]) = joinSegs (ys ++ [t]) := by
            simp [renderPath]
          have h2 : renderPath false ys = joinSegs ys := by
            simp [renderPath, hyne]
          rw [h1, h2, hjoin]
      unfold goDir
      rw [show (String.mk (renderPath rooted (ys ++ [t]))).data
          = renderPath rooted (ys ++ [t]) from rfl, hform, dropLastSeg_append _ t htsf, hdrop]
      exact clean_renderPath_slash rooted ys hys

/-! ## The written file is the one `Get` finds -/

/-- Pointwise-equal predicates give equal `any`. -/
theorem list_any_congr {α : Type} (l : List α) (f g : α → Bool)
    (h : ∀ x ∈ l, f x = g x) : l.any f = l.any g := by
  induction l with
  | nil => rfl
  | cons a t ih =>
    rw [List.any_cons, List.any_cons, h a (List.mem_cons_self a t),
      ih (fun x hx => h x (List.mem_cons_of_mem a hx))]

/-- A cleaned string is canonical and renders its own parse. -/
theorem clean_canonForm (s : String) :
    CanonStack (parsePath (clean s)).1 (parsePath (clean s)).2 ∧
    clean s = String.mk (renderPath (parsePath (clean s)).1 (parsePath (clean s)).2) := by
  constructor
  · rw [parsePath_clean]
    exact parsePath_canon s
  · rw [parsePath_clean]
    exact clean_renderPath s

/-- `goJoin` returns the empty string or a cleaned string. -/
theorem goJoin_form (a b : String) : goJoin a b = "" ∨ ∃ s, goJoin a b = clean s := by
  unfold goJoin
  by_cases h1 : a = ""
  · by_cases h2 : b = ""
    · left; simp [h1, h2]
    · right; exact ⟨b, by simp [h1, h2]⟩
  · by_cases h2 : b = ""
    · right; exact ⟨a, by simp [h1, h2]⟩
    · right; exact ⟨a ++ "/" ++ b, by simp [h1, h2]⟩

/-- A translated local name is the empty string or a canonical rendering of
its own parse. -/
theorem localName_form (c : LocalCacher) (tmp name : String) :
    c.localName tmp name = "" ∨
    (CanonStack (parsePath (c.localName tmp name)).1 (parsePath (c.localName tmp name)).2 ∧
      c.localName tmp name = String.mk (renderPath (parsePath (c.localName tmp name)).1
        (parsePath (c.localName tmp name)).2)) := by
  by_cases h1 : c.Root ≠ ""
  · have hl : c.localName tmp name = goJoin (fromSlash c.Root) (fromSlash name) := by
      simp [LocalCacher.localName, h1]
    rcases goJoin_form (fromSlash c.Root) (fromSlash name) with h | ⟨s, hs⟩
    · left; rw [hl, h]
    · right; rw [hl, hs]; exact clean_canonForm s
  · have hl : c.localName tmp name = goJoin tmp (fromSlash name) := by
      simp [LocalCacher.localName, h1]
    rcases goJoin_form tmp (fromSlash name) with h | ⟨s, hs⟩
    · left; rw [hl, h]
    · right; rw [hl, hs]; exact clean_canonForm s

/-- A path never appears among its own strict ancestors. -/
theorem self_not_ancestor (c : LocalCacher) (tmp name : String) :
    ∀ p ∈ ancestorPaths (c.localName tmp name), p ≠ c.localName tmp name := by
  intro p hp
  rcases localName_form c tmp name with h0 | ⟨hcanon, hform⟩
  · rw [h0] at hp
    have hz : (parsePath "").2 = [] := rfl
    simp [ancestorPaths, hz] at hp
  · unfold ancestorPaths at hp
    rw [List.mem_map] at hp
    obtain ⟨i, hi, hpe⟩ := hp
    rw [List.mem_range] at hi
    intro hcontra
    have heq : String.mk (renderPath (parsePath (c.localName tmp name)).1
        ((parsePath (c.localName tmp name)).2.take i))
        = String.mk (renderPath (parsePath (c.localName tmp name)).1
          (parsePath (c.localName tmp name)).2) := by
      rw [hpe, hcontra]
      exact hform
    have hinj := renderPath_inj _ _ _ _ (canonStack_take _ _ i hcanon) hcanon heq
    have hlen := congrArg List.length hinj.2
    rw [List.length_take, Nat.min_eq_left (Nat.le_of_lt hi)] at hlen
    omega

/-- Updating the node at a path does not change whether one of its strict
ancestors is a file. -/
theorem ancestorIsFile_setNode_self (fs : FileSystem) (p : String) (n : FsNode)
    (hnot : ∀ q ∈ ancestorPaths p, q ≠ p) :
    ancestorIsFile (fs.setNode p n) p = ancestorIsFile fs p := by
  unfold ancestorIsFile
  refine list_any_congr _ _ _ (fun q hq => ?_)
  unfold FileSystem.setNode
  rw [if_neg (hnot q hq)]

/-- What a successful `writeFile` asserts and does. -/
theorem writeFile_ok (fs : FileSystem) (path : String) (b : Bytes) (now : Nat)
    (fs' : FileSystem) (h : writeFile fs path b now = (.ok (), fs')) :
    ancestorIsFile fs path = false ∧ fs' = fs.setNode path (.file b now true) := by
  unfold writeFile at h
  split at h
  · exact absurd (congrArg Prod.fst h) (by simp)
  · rename_i hanc
    split at h
    · exact absurd (congrArg Prod.fst h) (by simp)
    · split at h
      · refine ⟨by simpa using hanc, ?_⟩
        exact (congrArg Prod.snd h).symm
      · exact absurd (congrArg Prod.fst h) (by simp)

/-- After a successful `writeFile` of the translated name, `Get` returns the
freshly written entry. -/
theorem get_after_write (c : LocalCacher) (tmp : String) (ctx : Context) (now : Nat)
    (name : String) (b : Bytes) (fs1 fs' : FileSystem)
    (h : writeFile fs1 (c.localName tmp name) b now = (.ok (), fs')) :
    c.Get tmp ctx fs' name = .ok ⟨⟨false, b, now, 0⟩, name, now⟩ := by
  obtain ⟨hanc, hfs⟩ := writeFile_ok _ _ _ _ _ h
  subst hfs
  have hanc2 : ancestorIsFile (fs1.setNode (c.localName tmp name) (.file b now true))
      (c.localName tmp name) = false := by
    rw [ancestorIsFile_setNode_self fs1 _ _ (self_not_ancestor c tmp name)]
    exact hanc
  have hnode : (fs1.setNode (c.localName tmp name) (.file b now true)) (c.localName tmp name)
      = .file b now true := by
    unfold FileSystem.setNode
    rw [if_pos rfl]
  unfold LocalCacher.Get
  simp [osOpen, hanc2, hnode, fileStat]

/-- A successful `Set` with a successful reader is a successful `mkdirAll`
followed by a successful `writeFile`. -/
theorem set_ok_decomp (c : LocalCacher) (tmp : String) (ctx : Context) (now : Nat)
    (fs : FileSystem) (name : String) (b : Bytes) (fsOut : FileSystem)
    (h : c.Set tmp ctx now fs name ⟨.ok b⟩ = (.ok (), fsOut)) :
    ∃ fs1, mkdirAll fs (goDir (c.localName tmp name)) = (.ok (), fs1) ∧
      writeFile fs1 (c.localName tmp name) b now = (.ok (), fsOut) := by
  simp only [LocalCacher.Set, ioReadAll] at h
  cases hmk : mkdirAll fs (goDir (c.localName tmp name)) with
  | mk res fs1 =>
    rw [hmk] at h
    cases res with
    | error e => exact absurd (congrArg Prod.fst h) (by simp)
    | ok u =>
      cases u
      exact ⟨fs1, rfl, h⟩

/-- A successful `Set` makes `Get` of the same name return the payload as a
fresh entry. -/
theorem set_ok_get (c : LocalCacher) (tmp : String) (ctx ctx' : Context) (now : Nat)
    (fs : FileSystem) (name : String) (P : Bytes)
    (h : (c.Set tmp ctx now fs name ⟨.ok P⟩).1 = .ok ()) :
    c.Get tmp ctx' (c.Set tmp ctx now fs name ⟨.ok P⟩).2 name
      = .ok ⟨⟨false, P, now, 0⟩, name, now⟩ := by
  have hpair : c.Set tmp ctx now fs name ⟨.ok P⟩
      = (.ok (), (c.Set tmp ctx now fs name ⟨.ok P⟩).2) := by
    rw [← h]
  obtain ⟨fs1, _, hwf⟩ := set_ok_decomp c tmp ctx now fs name P _ hpair
  exact get_after_write c tmp ctx' now name P fs1 _ hwf

/-! ## Where `Set` can place files, and what `Get` can open -/

/-- A full read of a directory handle fails at the first `Read`. -/
theorem readAllFrom_dir (h : Handle) (hd : h.isDir = true) :
    readAllFrom h = .error .isDirectory := by
  rw [readAllFrom]
  simp [hd]

/-- A handle returned by `osOpen` wraps either the regular file at the path
or a directory there. -/
theorem osOpen_ok (fs : FileSystem) (p : String) (h : Handle) (hop : osOpen fs p = .ok h) :
    (h.isDir = false ∧ fs p = .file h.data h.mtime true) ∨
    (h.isDir = true ∧ fs p = .dir) := by
  unfold osOpen at hop
  split at hop
  · cases hop
  · revert hop
    cases hfs : fs p with
    | absent => intro hop; cases hop
    | file d m r =>
      cases r with
      | true => intro hop; cases hop; exact Or.inl ⟨rfl, rfl⟩
      | false => intro hop; cases hop
    | dir => intro hop; cases hop; exact Or.inr ⟨rfl, rfl⟩

/-- A successful `Get` means `osOpen` succeeded with the entry's handle. -/
theorem get_ok_open (c : LocalCacher) (tmp : String) (ctx : Context) (fs : FileSystem)
    (name : String) (e : localCache) (h : c.Get tmp ctx fs name = .ok e) :
    osOpen fs (c.localName tmp name) = .ok e.file := by
  unfold LocalCacher.Get at h
  cases hop : osOpen fs (c.localName tmp name) with
  | error err =>
    rw [hop] at h
    by_cases hne : isNotExist err = true <;> simp [hne] at h
  | ok file =>
    rw [hop] at h
    simp only [fileStat] at h
    cases h
    rfl

/-- `mkdirAllFrom` on a file-free disk succeeds and leaves it file-free. -/
theorem mkdirAllFrom_no_file (rooted : Bool) : ∀ (todo done : List (List Char))
    (fs : FileSystem), (∀ q, (fs q).isFile = false) →
    ∃ fs', mkdirAllFrom fs rooted done todo = (.ok (), fs') ∧ ∀ q, (fs' q).isFile = false := by
  intro todo
  induction todo with
  | nil => intro done fs h; exact ⟨fs, rfl, h⟩
  | cons seg rest ih =>
    intro done fs h
    cases hnode : fs (String.mk (renderPath rooted (done ++ [seg]))) with
    | absent =>
      have hpre : ∀ q,
          ((fs.setNode (String.mk (renderPath rooted (done ++ [seg]))) .dir) q).isFile
            = false := by
        intro q
        unfold FileSystem.setNode
        by_cases hq : q = String.mk (renderPath rooted (done ++ [seg]))
        · rw [if_pos hq]; rfl
        · rw [if_neg hq]; exact h q
      obtain ⟨fs', h1, h2⟩ := ih (done ++ [seg]) _ hpre
      refine ⟨fs', ?_, h2⟩
      rw [mkdirAllFrom, hnode]
      exact h1
    | file d m r =>
      have := h (String.mk (renderPath rooted (done ++ [seg])))
      rw [hnode] at this
      cases this
    | dir =>
      obtain ⟨fs', h1, h2⟩ := ih (done ++ [seg]) fs h
      refine ⟨fs', ?_, h2⟩
      rw [mkdirAllFrom, hnode]
      exact h1

/-- The disk after `writeFile`: unchanged, or updated exactly at the written
path. -/
theorem writeFile_snd (fs : FileSystem) (path : String) (b : Bytes) (now : Nat) :
    (writeFile fs path b now).2 = fs ∨
    (writeFile fs path b now).2 = fs.setNode path (.file b now true) := by
  unfold writeFile
  split
  · left; rfl
  · split
    · left; rfl
    · split
      · right; rfl
      · left; rfl

/-- Starting from the empty store, any file `Set` leaves on the disk sits at
the translated local name. -/
theorem set_files_only_at (c : LocalCacher) (tmp : String) (ctx : Context) (now : Nat)
    (name : String) (P : Bytes) (res1 : Except GoError Unit) (fs1 : FileSystem)
    (h : c.Set tmp ctx now emptyFS name ⟨.ok P⟩ = (res1, fs1)) :
    ∀ q, (fs1 q).isFile = true → q = c.localName tmp name := by
  obtain ⟨fsMk, hmk, hnf⟩ := mkdirAllFrom_no_file (parsePath (goDir (c.localName tmp name))).1
    (parsePath (goDir (c.localName tmp name))).2 [] emptyFS (fun _ => rfl)
  have hmk2 : mkdirAll emptyFS (goDir (c.localName tmp name)) = (.ok (), fsMk) := hmk
  have hset : (res1, fs1) = writeFile fsMk (c.localName tmp name) P now := by
    rw [← h]
    simp only [LocalCacher.Set, ioReadAll]
    rw [hmk2]
  have hfs1 : fs1 = (writeFile fsMk (c.localName tmp name) P now).2 := by
    rw [← hset]
  rcases writeFile_snd fsMk (c.localName tmp name) P now with hw | hw
  · intro q hq
    rw [hfs1, hw, hnf q] at hq
    cases hq
  · intro q hq
    rw [hfs1, hw] at hq
    unfold FileSystem.setNode at hq
    by_cases hqe : q = c.localName tmp name
    · exact hqe
    · rw [if_neg hqe, hnf q] at hq
      cases hq

/-- The parse of a join under a non-empty root: the root's parse extended by
the kept segments of a `..`-free name. -/
theorem parsePath_join_root (root name : String) (hroot : ¬root = "")
    (hnm : ∀ s ∈ splitPath name.data, s ≠ dotdot) :
    parsePath (goJoin root name)
      = ((parsePath root).1, (parsePath root).2 ++ keepSegs (splitPath name.data)) := by
  by_cases hn : name = ""
  · subst hn
    have hj : goJoin root "" = clean root := by simp [goJoin, hroot]
    rw [hj, parsePath_clean]
    have hk : keepSegs (splitPath ("" : String).data) = [] := rfl
    rw [hk, List.append_nil]
  · have hj : goJoin root name = clean (root ++ "/" ++ name) := by simp [goJoin, hroot, hn]
    rw [hj, parsePath_clean]
    have hdata : (root ++ "/" ++ name).data = root.data ++ '/' :: name.data := by
      rw [String.data_append, String.data_append]
      simp
    have hrd : root.data ≠ [] := by
      intro hh
      apply hroot
      cases root with
      | mk d =>
        have hd : d = [] := hh
        subst hd
        rfl
    have hro : isRooted (root.data ++ '/' :: name.data) = isRooted root.data := by
      cases hc : root.data with
      | nil => exact absurd hc hrd
      | cons a l => simp [isRooted]
    unfold parsePath
    rw [show (root ++ "/" ++ name).data = root.data ++ '/' :: name.data from hdata, hro,
      splitPath_append_slash, cleanSegs_append, cleanSegs_no_dotdot _ _ _ hnm]

/-- Two non-empty roots that clean differently translate any `..`-free name
to different local paths. -/
theorem localName_ne_of_roots (c1 c2 : LocalCacher) (tmp name : String)
    (h1 : ¬c1.Root = "") (h2 : ¬c2.Root = "") (hr : clean c1.Root ≠ clean c2.Root)
    (hnm : ∀ s ∈ splitPath name.data, s ≠ dotdot) :
    c1.localName tmp name ≠ c2.localName tmp name := by
  have hl1 : c1.localName tmp name = goJoin c1.Root name := by
    simp [LocalCacher.localName, fromSlash, h1]
  have hl2 : c2.localName tmp name = goJoin c2.Root name := by
    simp [LocalCacher.localName, fromSlash, h2]
  have hpr : parsePath c1.Root ≠ parsePath c2.Root := by
    intro hh
    apply hr
    rw [clean_renderPath c1.Root, clean_renderPath c2.Root, hh]
  intro hcontra
  apply hpr
  rw [hl1, hl2] at hcontra
  have hpp := congrArg parsePath hcontra
  rw [parsePath_join_root c1.Root name h1 hnm, parsePath_join_root c2.Root name h2 hnm] at hpp
  have hfst := congrArg Prod.fst hpp
  have hsnd := congrArg Prod.snd hpp
  have hs : (parsePath c1.Root).2 = (parsePath c2.Root).2 := List.append_cancel_right hsnd
  exact Prod.ext_iff.mpr ⟨hfst, hs⟩

/-! ## `MkdirAll` over an absent chain -/

/-- Renderings of front parts of different lengths of a canonical stack are
different strings. -/
theorem renderPath_take_ne (rooted : Bool) (segs : List (List Char))
    (h : CanonStack rooted segs) (j1 j2 : Nat) (hlt : j1 < j2) (hle : j2 ≤ segs.length) :
    String.mk (renderPath rooted (segs.take j1)) ≠ String.mk (renderPath rooted (segs.take j2)) := by
  intro heq
  have hinj := renderPath_inj rooted rooted (segs.take j1) (segs.take j2)
    (canonStack_take rooted segs j1 h) (canonStack_take rooted segs j2 h) heq
  have hlen := congrArg List.length hinj.2
  rw [List.length_take, List.length_take, Nat.min_eq_left (by omega),
    Nat.min_eq_left (by omega)] at hlen
  omega

/-- `mkdirAllFrom` along a wholly absent chain succeeds, turns exactly the
chain paths into directories, and leaves every other path untouched. -/
theorem mkdirAllFrom_absent_chain (rooted : Bool) : ∀ (todo done : List (List Char))
    (fs : FileSystem), CanonStack rooted (done ++ todo) →
    (∀ i, 0 < i → i ≤ todo.length →
      fs (String.mk (renderPath rooted (done ++ todo.take i))) = .absent) →
    ∃ fs', mkdirAllFrom fs rooted done todo = (.ok (), fs') ∧
      (∀ i, 0 < i → i ≤ todo.length →
        fs' (String.mk (renderPath rooted (done ++ todo.take i))) = .dir) ∧
      (∀ q, (∀ i, 0 < i → i ≤ todo.length →
        q ≠ String.mk (renderPath rooted (done ++ todo.take i))) → fs' q = fs q) := by
  intro todo
  induction todo with
  | nil =>
    intro done fs _ _
    exact ⟨fs, rfl, fun i hi0 hile => absurd hile (by simp; omega), fun q _ => rfl⟩
  | cons seg rest ih =>
    intro done fs hcanon habs
    have hfull : done ++ seg :: rest = (done ++ [seg]) ++ rest := by simp
    have htakes : ∀ i, i ≤ rest.length →
        (done ++ [seg]) ++ rest.take i = done ++ (seg :: rest).take (i + 1) := by
      intro i _
      rw [List.take_succ_cons]
      simp
    have hlen_take : ∀ i, i ≤ rest.length →
        done ++ (seg :: rest).take (i + 1) = (done ++ seg :: rest).take (done.length + 1 + i) := by
      intro i hi
      rw [List.take_append_eq_append_take]
      have hd : done.take (done.length + 1 + i) = done := List.take_of_length_le (by omega)
      rw [hd]
      congr 1
      congr 1
      omega
    have hp0 : fs (String.mk (renderPath rooted (done ++ [seg]))) = .absent := by
      have := habs 1 (by omega) (by simp)
      simpa using this
    have hcanon' : CanonStack rooted ((done ++ [seg]) ++ rest) := by
      rw [← hfull]
      exact hcanon
    have habs' : ∀ i, 0 < i → i ≤ rest.length →
        (fs.setNode (String.mk (renderPath rooted (done ++ [seg]))) .dir)
          (String.mk (renderPath rooted ((done ++ [seg]) ++ rest.take i))) = .absent := by
      intro i hi0 hile
      have hne : String.mk (renderPath rooted (done ++ [seg]))
          ≠ String.mk (renderPath rooted ((done ++ [seg]) ++ rest.take i)) := by
        rw [htakes i hile, hlen_take i hile,
          show done ++ [seg] = done ++ (seg :: rest).take 1 from by simp,
          hlen_take 0 (by omega)]
        exact renderPath_take_ne rooted (done ++ seg :: rest) hcanon _ _ (by omega)
          (by simp; omega)
      unfold FileSystem.setNode
      rw [if_neg (fun hh => hne hh.symm)]
      rw [htakes i hile]
      have := habs (i + 1) (by omega) (by simp; omega)
      simpa using this
    obtain ⟨fs', hrun, hdirs', huntouched'⟩ := ih (done ++ [seg]) _ hcanon' habs'
    refine ⟨fs', ?_, ?_, ?_⟩
    · rw [mkdirAllFrom, hp0]
      exact hrun
    · intro i hi0 hile
      rcases Nat.exists_eq_add_of_lt hi0 with ⟨i2, hi2⟩
      have hi2e : i = i2 + 1 := by omega
      subst hi2e
      cases Nat.eq_zero_or_pos i2 with
      | inl hz =>
        subst hz
        have hpq : done ++ (seg :: rest).take 1 = done ++ [seg] := by simp
        rw [hpq]
        have huq : fs' (String.mk (renderPath rooted (done ++ [seg])))
            = (fs.setNode (String.mk (renderPath rooted (done ++ [seg]))) .dir)
              (String.mk (renderPath rooted (done ++ [seg]))) := by
          apply huntouched'
          intro j hj0 hjle
          rw [htakes j hjle, hlen_take j hjle,
            show done ++ [seg] = done ++ (seg :: rest).take 1 from by simp,
            hlen_take 0 (by omega)]
          exact renderPath_take_ne rooted (done ++ seg :: rest) hcanon _ _ (by omega)
            (by simp; omega)
        rw [huq]
        unfold FileSystem.setNode
        rw [if_pos rfl]
      | inr hpos =>
        have h1 : done ++ (seg :: rest).take (i2 + 1) = (done ++ [seg]) ++ rest.take i2 := by
          rw [htakes i2 (by simp at hile; omega)]
        rw [h1]
        exact hdirs' i2 hpos (by simp at hile; omega)
    · intro q hq
      have hq' : ∀ i, 0 < i → i ≤ rest.length →
          q ≠ String.mk (renderPath rooted ((done ++ [seg]) ++ rest.take i)) := by
        intro i hi0 hile
        rw [htakes i hile]
        exact hq (i + 1) (by omega) (by simp; omega)
      rw [huntouched' q hq']
      unfold FileSystem.setNode
      rw [if_neg ?_]
      have := hq 1 (by omega) (by simp)
      simpa using this

/-- `writeFile` succeeds when no ancestor is a file, the target is not a
directory, and the parent directory exists (or is a root). -/
theorem writeFile_succeeds (fs : FileSystem) (path : String) (b : Bytes) (now : Nat)
    (hanc : ancestorIsFile fs path = false)
    (hnode : fs path = .absent ∨ ∃ d m r, fs path = .file d m r)
    (hparent : isRootPath (goDir path) = true ∨ fs (goDir path) = .dir) :
    writeFile fs path b now = (.ok (), fs.setNode path (.file b now true)) := by
  unfold writeFile
  split
  · rename_i hcontra
    rw [hanc] at hcontra
    cases hcontra
  · split
    · rename_i hd
      rcases hnode with hn | ⟨d, m, r, hn⟩ <;> rw [hn] at hd <;> cases hd
    all_goals rfl

/-! ## Claims -/

/-- Claim C10: `Set` drains the byte source before touching the disk; when
the source fails with an error, `Set` returns exactly that error and the
disk state is the pre-call state, with no directory created and no file
written or truncated, so any subsequent `Get` observes the pre-call
store. -/
theorem C10_failed_read_leaves_store_unchanged (c : LocalCacher) (tmpDir : String)
    (ctx : Context) (now : Nat) (fs : FileSystem) (name : String) (e : GoError) :
    c.Set tmpDir ctx now fs name ⟨.error e⟩ = (.error e, fs) := rfl

/-- Claim C1: a successful `Set(name, P)` followed by `Get(name)` on the
same store returns an entry whose full read from offset 0 to end-of-stream
yields exactly the bytes `P`. -/
theorem C1_round_trip (c : LocalCacher) (tmp : String) (ctx ctx' : Context) (now : Nat)
    (fs : FileSystem) (name : String) (P : Bytes)
    (h : (c.Set tmp ctx now fs name ⟨.ok P⟩).1 = .ok ()) :
    c.Get tmp ctx' (c.Set tmp ctx now fs name ⟨.ok P⟩).2 name
      = .ok ⟨⟨false, P, now, 0⟩, name, now⟩ ∧
    readAllFrom (⟨false, P, now, 0⟩ : Handle) = .ok P :=
  ⟨set_ok_get c tmp ctx ctx' now fs name P h, by simpa using readAllFrom_ok ⟨false, P, now, 0⟩ rfl⟩

/-- Claim C1, witness at a concrete store and payload. -/
theorem C1_round_trip_witness :
    LocalCacher.Get ⟨"/r"⟩ "/tmp" ⟨false⟩
        (LocalCacher.Set ⟨"/r"⟩ "/tmp" ⟨false⟩ 7 emptyFS "a/b" ⟨.ok [1, 2]⟩).2 "a/b"
      = .ok ⟨⟨false, [1, 2], 7, 0⟩, "a/b", 7⟩ ∧
    readAllFrom (⟨false, [1, 2], 7, 0⟩ : Handle) = .ok [1, 2] :=
  C1_round_trip ⟨"/r"⟩ "/tmp" ⟨false⟩ ⟨false⟩ 7 emptyFS "a/b" [1, 2] (by decide)

/-- Claim C5: `Set(name, P1)` then `Set(name, P2)` then `Get(name)` yields
exactly `P2`: the second write fully replaces the first, leaving no residual
bytes of `P1`, whatever their lengths. -/
theorem C5_overwrite (c : LocalCacher) (tmp : String) (ctx1 ctx2 ctx3 : Context)
    (now1 now2 : Nat) (fs : FileSystem) (name : String) (P1 P2 : Bytes)
    (h1 : (c.Set tmp ctx1 now1 fs name ⟨.ok P1⟩).1 = .ok ())
    (h2 : (c.Set tmp ctx2 now2 (c.Set tmp ctx1 now1 fs name ⟨.ok P1⟩).2 name ⟨.ok P2⟩).1
      = .ok ()) :
    c.Get tmp ctx3
        (c.Set tmp ctx2 now2 (c.Set tmp ctx1 now1 fs name ⟨.ok P1⟩).2 name ⟨.ok P2⟩).2 name
      = .ok ⟨⟨false, P2, now2, 0⟩, name, now2⟩ ∧
    readAllFrom (⟨false, P2, now2, 0⟩ : Handle) = .ok P2 :=
  ⟨set_ok_get c tmp ctx2 ctx3 now2 _ name P2 h2,
    by simpa using readAllFrom_ok ⟨false, P2, now2, 0⟩ rfl⟩

/-- Claim C5, witness: a longer payload is fully replaced by a shorter
one. -/
theorem C5_overwrite_witness :
    LocalCacher.Get ⟨"/r"⟩ "/tmp" ⟨false⟩
        (LocalCacher.Set ⟨"/r"⟩ "/tmp" ⟨false⟩ 9
          (LocalCacher.Set ⟨"/r"⟩ "/tmp" ⟨false⟩ 7 emptyFS "a/b" ⟨.ok [1, 2, 3]⟩).2
          "a/b" ⟨.ok [5]⟩).2 "a/b"
      = .ok ⟨⟨false, [5], 9, 0⟩, "a/b", 9⟩ ∧
    readAllFrom (⟨false, [5], 9, 0⟩ : Handle) = .ok [5] :=
  C5_overwrite ⟨"/r"⟩ "/tmp" ⟨false⟩ ⟨false⟩ ⟨false⟩ 7 9 emptyFS "a/b" [1, 2, 3] [5]
    (by decide) (by decide)

/-- Claim C3, counterexample: the claim says every operation checks the
cancellation state of the context and returns a generic store error when it
is already cancelled; but with a cancelled context and an existing entry,
`Get` returns the entry successfully, so no operation consults the
context. -/
theorem C3_counterexample :
    (Context.cancelled ⟨true⟩ = true) ∧
    LocalCacher.Get ⟨"/r"⟩ "/tmp" ⟨true⟩ (emptyFS.setNode "/r/x" (.file [1] 5 true)) "x"
      = .ok ⟨⟨false, [1], 5, 0⟩, "x", 5⟩ := by
  constructor
  · rfl
  · decide

/-- Claim C3, amended: the local backend never inspects the supplied
context; `Get` and `Set` return identical results under any two contexts,
cancelled or not, so cancellation is neither checked before work nor
surfaced as any error. -/
theorem C3_amended_context_ignored (c : LocalCacher) (tmpDir : String) (ctx1 ctx2 : Context)
    (now : Nat) (fs : FileSystem) (name : String) (r : Reader) :
    c.Get tmpDir ctx1 fs name = c.Get tmpDir ctx2 fs name ∧
    c.Set tmpDir ctx1 now fs name r = c.Set tmpDir ctx2 now fs name r :=
  ⟨rfl, rfl⟩

/-- Claim C2, counterexample: after `Set("a/b/c", P)` from an empty store,
the name `"a/b"` was never `Set` and did not pre-exist, yet `Get("a/b")`
does not return the NotFound sentinel: `os.Open` succeeds on the directory
that `Set` created as an artifact, and `Get` returns a (dir-backed)
entry. -/
theorem C2_counterexample :
    (LocalCacher.Set ⟨"/r"⟩ "/tmp" ⟨false⟩ 7 emptyFS "a/b/c" ⟨.ok [1]⟩).1 = .ok () ∧
    LocalCacher.Get ⟨"/r"⟩ "/tmp" ⟨false⟩
        (LocalCacher.Set ⟨"/r"⟩ "/tmp" ⟨false⟩ 7 emptyFS "a/b/c" ⟨.ok [1]⟩).2 "a/b"
      = .ok ⟨⟨true, [], 0, 0⟩, "a/b", 0⟩ := by
  constructor
  · decide
  · decide

/-- Claim C4, counterexample: the stores rooted at `"/a"` and `"/b"` have
different `Root` values, yet the name `"../b/x"` (a parent-directory
traversal, which the claim explicitly includes) written through the first
store is read back, bytes and all, through the second store under the very
same name: `Join` resolves both to the local path `"/b/x"`. -/
theorem C4_counterexample :
    ((⟨"/a"⟩ : LocalCacher).Root ≠ (⟨"/b"⟩ : LocalCacher).Root) ∧
    (LocalCacher.Set ⟨"/a"⟩ "/tmp" ⟨false⟩ 7 emptyFS "../b/x" ⟨.ok [7]⟩).1 = .ok () ∧
    LocalCacher.Get ⟨"/b"⟩ "/tmp" ⟨false⟩
        (LocalCacher.Set ⟨"/a"⟩ "/tmp" ⟨false⟩ 7 emptyFS "../b/x" ⟨.ok [7]⟩).2 "../b/x"
      = .ok ⟨⟨false, [7], 7, 0⟩, "../b/x", 7⟩ ∧
    readAllFrom ⟨false, [7], 7, 0⟩ = .ok [7] := by
  refine ⟨by decide, by decide, by decide, ?_⟩
  rw [readAllFrom_ok ⟨false, [7], 7, 0⟩ rfl]
  rfl

/-- Claim C4, amended: for stores with non-empty `Root` values that are
distinct after path cleaning, and names free of parent-directory (`..`)
segments, a payload `Set` through one store from an empty disk is never
readable through the other store under the same name: if `Get` through the
other store succeeds at all, it returns a directory-backed entry whose read
fails, never the payload bytes. -/
theorem C4_amended_root_isolation (c1 c2 : LocalCacher) (tmp : String) (ctx1 ctx2 : Context)
    (now : Nat) (name : String) (P : Bytes) (res1 : Except GoError Unit) (fs1 : FileSystem)
    (e : localCache)
    (h1 : ¬c1.Root = "") (h2 : ¬c2.Root = "") (hr : clean c1.Root ≠ clean c2.Root)
    (hnm : ∀ s ∈ splitPath name.data, s ≠ dotdot)
    (hset : c1.Set tmp ctx1 now emptyFS name ⟨.ok P⟩ = (res1, fs1))
    (hget : c2.Get tmp ctx2 fs1 name = .ok e) :
    e.file.isDir = true ∧ readAllFrom e.file = .error .isDirectory := by
  have hln := localName_ne_of_roots c1 c2 tmp name h1 h2 hr hnm
  have honly := set_files_only_at c1 tmp ctx1 now name P res1 fs1 hset
  have hop := get_ok_open c2 tmp ctx2 fs1 name e hget
  rcases osOpen_ok fs1 (c2.localName tmp name) e.file hop with ⟨_, hfile⟩ | ⟨hdir, _⟩
  · have : (fs1 (c2.localName tmp name)).isFile = true := by
      rw [hfile]
      rfl
    exact absurd (honly _ this).symm hln
  · exact ⟨hdir, readAllFrom_dir e.file hdir⟩

/-- Claim C4 (amended), witness: roots `"/a/x"` and `"/a"` clean differently
and the name `"x"` has no `..`; the write through the first store makes the
second store's `Get` return a directory-backed entry whose read fails. -/
theorem C4_amended_root_isolation_witness :
    ((⟨true, [], 0, 0⟩ : Handle).isDir = true) ∧
    readAllFrom (⟨true, [], 0, 0⟩ : Handle) = .error .isDirectory :=
  C4_amended_root_isolation ⟨"/a/x"⟩ ⟨"/a"⟩ "/tmp" ⟨false⟩ ⟨false⟩ 7 "x" [9]
    (LocalCacher.Set ⟨"/a/x"⟩ "/tmp" ⟨false⟩ 7 emptyFS "x" ⟨.ok [9]⟩).1
    (LocalCacher.Set ⟨"/a/x"⟩ "/tmp" ⟨false⟩ 7 emptyFS "x" ⟨.ok [9]⟩).2
    ⟨⟨true, [], 0, 0⟩, "x", 0⟩
    (by decide) (by decide) (by decide) (by decide) rfl (by decide)

/-- The errors `osOpen` can produce. -/
theorem osOpen_error_shape (fs : FileSystem) (p : String) (e : GoError) :
    osOpen fs p = .error e → e = .notDirectory ∨ e = .notExist ∨ e = .permission := by
  unfold osOpen
  split
  · intro h
    cases h
    exact Or.inl rfl
  · cases fs p with
    | absent => intro h; cases h; exact Or.inr (Or.inl rfl)
    | file d m r =>
      cases r with
      | true => intro h; cases h
      | false => intro h; cases h; exact Or.inr (Or.inr rfl)
    | dir => intro h; cases h

/-- Shape of a successful `Get`: the handle's cursor is 0, the stored
modification time is the handle's, the name is echoed, and the handle's
modification time is the one of the node at the translated path. -/
theorem get_ok_shape (c : LocalCacher) (tmpDir : String) (ctx : Context) (fs : FileSystem)
    (name : String) (e : localCache) (h : c.Get tmpDir ctx fs name = .ok e) :
    e.name = name ∧ e.modTime = e.file.mtime ∧ e.file.pos = 0 ∧
      e.file.mtime = (fs (c.localName tmpDir name)).mtimeOf := by
  unfold LocalCacher.Get at h
  cases hop : osOpen fs (c.localName tmpDir name) with
  | error err =>
    rw [hop] at h
    by_cases hne : isNotExist err = true <;> simp [hne] at h
  | ok file =>
    rw [hop] at h
    simp only [fileStat] at h
    cases h
    unfold osOpen at hop
    split at hop
    · cases hop
    · revert hop
      cases hfs : fs (c.localName tmpDir name) with
      | absent => intro hop; cases hop
      | file d m r =>
        cases r with
        | true => intro hop; cases hop; exact ⟨rfl, rfl, rfl, rfl⟩
        | false => intro hop; cases hop
      | dir => intro hop; cases hop; exact ⟨rfl, rfl, rfl, rfl⟩

/-- Claim C9: a successful `Get` returns an entry positioned at offset 0,
whose `Name()` echoes the requested name exactly, and whose `ModTime()` is
the modification time the backend holds for the translated path at open
time; `localCache.ModTime` consults no disk state afterwards, so the
snapshot is never refreshed by later reads or external writes. -/
theorem C9_entry_at_open (c : LocalCacher) (tmpDir : String) (ctx : Context)
    (fs : FileSystem) (name : String) (e : localCache)
    (h : c.Get tmpDir ctx fs name = .ok e) :
    e.file.pos = 0 ∧ e.Name = name ∧ e.ModTime = (fs (c.localName tmpDir name)).mtimeOf := by
  obtain ⟨h1, h2, h3, h4⟩ := get_ok_shape c tmpDir ctx fs name e h
  exact ⟨h3, h1, by rw [localCache.ModTime, h2, h4]⟩

/-- Claim C9, witness at a concrete store. -/
theorem C9_entry_at_open_witness :
    (⟨false, [1], 5, 0⟩ : Handle).pos = 0 ∧
    localCache.Name ⟨⟨false, [1], 5, 0⟩, "x", 5⟩ = "x" ∧
    localCache.ModTime ⟨⟨false, [1], 5, 0⟩, "x", 5⟩
      = ((emptyFS.setNode "/r/x" (.file [1] 5 true)) (LocalCacher.localName ⟨"/r"⟩ "/tmp" "x")).mtimeOf :=
  C9_entry_at_open ⟨"/r"⟩ "/tmp" ⟨false⟩ (emptyFS.setNode "/r/x" (.file [1] 5 true)) "x"
    ⟨⟨false, [1], 5, 0⟩, "x", 5⟩ (by decide)

/-- Claim C2, amended: `Get` returns the NotFound sentinel exactly when the
`os.Open` of the translated path fails with not-exist — in particular when
the path is absent and no strict ancestor of it is a regular file; every
other open failure is surfaced verbatim and is never the sentinel; a name
whose translated path is a directory (an artifact of a deeper `Set`)
instead yields a successful, directory-backed entry. -/
theorem C2_amended_miss_signaling (c : LocalCacher) (tmpDir : String) (ctx : Context)
    (fs : FileSystem) (name : String) :
    (c.Get tmpDir ctx fs name = .error .cacheNotFound ↔
      osOpen fs (c.localName tmpDir name) = .error .notExist) ∧
    (∀ e : GoError, osOpen fs (c.localName tmpDir name) = .error e → e ≠ .notExist →
      c.Get tmpDir ctx fs name = .error e ∧ e ≠ .cacheNotFound) ∧
    (fs (c.localName tmpDir name) = .absent →
      ancestorIsFile fs (c.localName tmpDir name) = false →
      c.Get tmpDir ctx fs name = .error .cacheNotFound) ∧
    (fs (c.localName tmpDir name) = .dir →
      ancestorIsFile fs (c.localName tmpDir name) = false →
      c.Get tmpDir ctx fs name = .ok ⟨⟨true, [], 0, 0⟩, name, 0⟩) := by
  refine ⟨?_, ?_, ?_, ?_⟩
  · constructor
    · intro h
      unfold LocalCacher.Get at h
      cases hop : osOpen fs (c.localName tmpDir name) with
      | error err =>
        rw [hop] at h
        rcases osOpen_error_shape fs (c.localName tmpDir name) err hop with he | he | he <;>
          subst he <;> simp [isNotExist] at h ⊢
      | ok file =>
        rw [hop] at h
        simp [fileStat] at h
    · intro hop
      unfold LocalCacher.Get
      rw [hop]
      simp [isNotExist]
  · intro e hop hne
    have hfalse : isNotExist e = false := by
      unfold isNotExist
      simpa using hne
    unfold LocalCacher.Get
    rw [hop]
    refine ⟨by simp [hfalse], ?_⟩
    rcases osOpen_error_shape fs (c.localName tmpDir name) e hop with he | he | he <;>
      subst he <;> intro hcontra <;> cases hcontra
  · intro habs hanc
    unfold LocalCacher.Get osOpen
    rw [hanc, habs]
    simp [isNotExist]
  · intro hdir hanc
    unfold LocalCacher.Get osOpen
    rw [hanc, hdir]
    simp [fileStat]

/-- Claim C2 (amended), witness: `Get` of a never-set name on the empty
store returns the NotFound sentinel. -/
theorem C2_amended_miss_signaling_witness :
    LocalCacher.Get ⟨"/r"⟩ "/tmp" ⟨false⟩ emptyFS "nope" = .error .cacheNotFound :=
  (C2_amended_miss_signaling ⟨"/r"⟩ "/tmp" ⟨false⟩ emptyFS "nope").2.2.1
    (by decide) (by decide)

/-- Claim C7: when neither the target nor any prefix of its translated path
exists yet, `Set` succeeds — creating every missing intermediate directory —
and a subsequent `Get` of the same name succeeds and returns the payload. -/
theorem C7_directory_autocreation (c : LocalCacher) (tmp : String) (ctx1 ctx2 : Context)
    (now : Nat) (fs : FileSystem) (name : String) (P : Bytes)
    (habs : ∀ i, i ≤ (parsePath (c.localName tmp name)).2.length →
      fs (String.mk (renderPath (parsePath (c.localName tmp name)).1
        ((parsePath (c.localName tmp name)).2.take i))) = .absent)
    (htarget : fs (c.localName tmp name) = .absent) :
    (c.Set tmp ctx1 now fs name ⟨.ok P⟩).1 = .ok () ∧
    c.Get tmp ctx2 (c.Set tmp ctx1 now fs name ⟨.ok P⟩).2 name
      = .ok ⟨⟨false, P, now, 0⟩, name, now⟩ ∧
    readAllFrom (⟨false, P, now, 0⟩ : Handle) = .ok P := by
  have hread : readAllFrom (⟨false, P, now, 0⟩ : Handle) = .ok P := by
    simpa using readAllFrom_ok ⟨false, P, now, 0⟩ rfl
  suffices hset : ∃ fsOut, c.Set tmp ctx1 now fs name ⟨.ok P⟩ = (.ok (), fsOut) by
    obtain ⟨fsOut, hOut⟩ := hset
    refine ⟨by rw [hOut], ?_, hread⟩
    obtain ⟨fs1, _, hwf⟩ := set_ok_decomp c tmp ctx1 now fs name P fsOut hOut
    rw [hOut]
    exact get_after_write c tmp ctx2 now name P fs1 fsOut hwf
  rcases localName_form c tmp name with h0 | ⟨hcanon, hform⟩
  · have hmk : mkdirAll fs (goDir (c.localName tmp name)) = (.ok (), fs) := by
      rw [h0]
      rfl
    have hanc : ancestorIsFile fs (c.localName tmp name) = false := by
      rw [h0]
      rfl
    have hparent : isRootPath (goDir (c.localName tmp name)) = true ∨
        fs (goDir (c.localName tmp name)) = .dir := by
      left
      rw [h0]
      decide
    have hwf := writeFile_succeeds fs (c.localName tmp name) P now hanc (Or.inl htarget) hparent
    refine ⟨fs.setNode (c.localName tmp name) (.file P now true), ?_⟩
    simp only [LocalCacher.Set, ioReadAll]
    rw [hmk]
    exact hwf
  · have hdll : (parsePath (c.localName tmp name)).2.dropLast.length
        = (parsePath (c.localName tmp name)).2.length - 1 :=
      List.length_dropLast _
    have htake_dl : ∀ i, i ≤ (parsePath (c.localName tmp name)).2.length - 1 →
        (parsePath (c.localName tmp name)).2.dropLast.take i
          = (parsePath (c.localName tmp name)).2.take i := by
      intro i hi
      rw [List.dropLast_eq_take, List.take_take, Nat.min_eq_left hi]
    have hne_take : ∀ i, i < (parsePath (c.localName tmp name)).2.length →
        String.mk (renderPath (parsePath (c.localName tmp name)).1
          ((parsePath (c.localName tmp name)).2.take i)) ≠ c.localName tmp name := by
      intro i hi
      have hne := renderPath_take_ne (parsePath (c.localName tmp name)).1
        (parsePath (c.localName tmp name)).2 hcanon i (parsePath (c.localName tmp name)).2.length
        hi (le_refl _)
      rw [List.take_length] at hne
      intro hcontra
      exact hne (hcontra.trans hform)
    have hdropcanon : CanonStack (parsePath (c.localName tmp name)).1
        (parsePath (c.localName tmp name)).2.dropLast := by
      rw [List.dropLast_eq_take]
      exact canonStack_take _ _ _ hcanon
    have hgd : goDir (c.localName tmp name)
        = String.mk (renderPath (parsePath (c.localName tmp name)).1
          (parsePath (c.localName tmp name)).2.dropLast) := by
      conv_lhs => rw [hform]
      exact goDir_renderPath _ _ hcanon
    have hparse_gd : parsePath (goDir (c.localName tmp name))
        = ((parsePath (c.localName tmp name)).1,
          (parsePath (c.localName tmp name)).2.dropLast) := by
      rw [hgd]
      exact parsePath_renderPath _ _ hdropcanon
    have hchain_abs : ∀ i, 0 < i → i ≤ (parsePath (c.localName tmp name)).2.dropLast.length →
        fs (String.mk (renderPath (parsePath (c.localName tmp name)).1
          ([] ++ (parsePath (c.localName tmp name)).2.dropLast.take i))) = .absent := by
      intro i hi0 hile
      rw [hdll] at hile
      rw [List.nil_append, htake_dl i hile]
      exact habs i (by omega)
    obtain ⟨fsMk, hmkrun, hdirs, huntouched⟩ :=
      mkdirAllFrom_absent_chain (parsePath (c.localName tmp name)).1
        (parsePath (c.localName tmp name)).2.dropLast [] fs
        (by simpa using hdropcanon) hchain_abs
    have hmk : mkdirAll fs (goDir (c.localName tmp name)) = (.ok (), fsMk) := by
      unfold mkdirAll
      rw [hparse_gd]
      exact hmkrun
    have hmk_self : fsMk (c.localName tmp name) = .absent := by
      have hu : fsMk (c.localName tmp name) = fs (c.localName tmp name) := by
        apply huntouched
        intro i hi0 hile
        rw [hdll] at hile
        rw [List.nil_append, htake_dl i hile]
        exact fun hc => hne_take i (by omega) hc.symm
      rw [hu, htarget]
    have hanc : ancestorIsFile fsMk (c.localName tmp name) = false := by
      unfold ancestorIsFile
      rw [List.any_eq_false]
      intro p hp
      unfold ancestorPaths at hp
      rw [List.mem_map] at hp
      obtain ⟨i, hirange, hpe⟩ := hp
      rw [List.mem_range] at hirange
      subst hpe
      cases Nat.eq_zero_or_pos i with
      | inl hz =>
        subst hz
        have hu : fsMk (String.mk (renderPath (parsePath (c.localName tmp name)).1
            ((parsePath (c.localName tmp name)).2.take 0)))
            = fs (String.mk (renderPath (parsePath (c.localName tmp name)).1
              ((parsePath (c.localName tmp name)).2.take 0))) := by
          apply huntouched
          intro j hj0 hjle
          rw [hdll] at hjle
          rw [List.nil_append, htake_dl j hjle]
          exact renderPath_take_ne _ _ hcanon 0 j hj0 (by omega)
        rw [hu, habs 0 (by omega)]
        simp [FsNode.isFile]
      | inr hpos =>
        have hd := hdirs i hpos (by rw [hdll]; omega)
        rw [List.nil_append, htake_dl i (by omega)] at hd
        rw [hd]
        simp [FsNode.isFile]
    have hparent : isRootPath (goDir (c.localName tmp name)) = true ∨
        fsMk (goDir (c.localName tmp name)) = .dir := by
      cases hdl : (parsePath (c.localName tmp name)).2.dropLast with
      | nil =>
        left
        rw [hgd, hdl]
        cases (parsePath (c.localName tmp name)).1 <;> decide
      | cons a l =>
        right
        have hlen1 : 0 < (parsePath (c.localName tmp name)).2.dropLast.length := by
          rw [hdl]
          simp
        have hd := hdirs (parsePath (c.localName tmp name)).2.dropLast.length hlen1 (le_refl _)
        rw [List.nil_append, List.take_length] at hd
        rw [hgd]
        exact hd
    have hwf := writeFile_succeeds fsMk (c.localName tmp name) P now hanc
      (Or.inl hmk_self) hparent
    refine ⟨fsMk.setNode (c.localName tmp name) (.file P now true), ?_⟩
    simp only [LocalCacher.Set, ioReadAll]
    rw [hmk]
    exact hwf

/-- Claim C7, witness: `Set("a/b/c", P)` from the empty store under root
`"/r"` creates `"/r/a"` and `"/r/a/b"` and the payload is read back. -/
theorem C7_directory_autocreation_witness :
    (LocalCacher.Set ⟨"/r"⟩ "/tmp" ⟨false⟩ 7 emptyFS "a/b/c" ⟨.ok [4, 2]⟩).1 = .ok () ∧
    LocalCacher.Get ⟨"/r"⟩ "/tmp" ⟨false⟩
        (LocalCacher.Set ⟨"/r"⟩ "/tmp" ⟨false⟩ 7 emptyFS "a/b/c" ⟨.ok [4, 2]⟩).2 "a/b/c"
      = .ok ⟨⟨false, [4, 2], 7, 0⟩, "a/b/c", 7⟩ ∧
    readAllFrom (⟨false, [4, 2], 7, 0⟩ : Handle) = .ok [4, 2] :=
  C7_directory_autocreation ⟨"/r"⟩ "/tmp" ⟨false⟩ ⟨false⟩ 7 emptyFS "a/b/c" [4, 2]
    (fun _ _ => rfl) rfl

/-- Claim C8: for an entry obtained by a successful `Get` over a file
payload, seeking to any absolute offset `k` within the payload and reading
to end-of-stream yields exactly the bytes of a full read from offset 0 with
its first `k` bytes discarded. -/
theorem C8_seek_then_read (c : LocalCacher) (tmpDir : String) (ctx : Context)
    (fs : FileSystem) (name : String) (e : localCache) (k : Nat)
    (hget : c.Get tmpDir ctx fs name = .ok e)
    (hfile : e.file.isDir = false)
    (hk : k ≤ e.file.data.length) :
    e.Seek (k : Int) 0 = .ok ((k : Int), { e with file := { e.file with pos := k } }) ∧
    readAllFrom e.file = .ok e.file.data ∧
    readAllFrom { e.file with pos := k } = .ok (e.file.data.drop k) := by
  obtain ⟨h1, h2, h3, h4⟩ := get_ok_shape c tmpDir ctx fs name e hget
  refine ⟨?_, ?_, ?_⟩
  · unfold localCache.Seek handleSeek
    have hnonneg : ¬ ((k : Int) < 0) := by omega
    simp [hnonneg]
  · rw [readAllFrom_ok e.file hfile, h3]
    simp
  · rw [readAllFrom_ok { e.file with pos := k } (by simpa using hfile)]

/-- Claim C8, witness at a concrete three-byte entry with `k = 2`. -/
theorem C8_seek_then_read_witness :
    localCache.Seek ⟨⟨false, [1, 2, 3], 5, 0⟩, "x", 5⟩ ((2 : Nat) : Int) 0
      = .ok (((2 : Nat) : Int), ⟨⟨false, [1, 2, 3], 5, 2⟩, "x", 5⟩) ∧
    readAllFrom ⟨false, [1, 2, 3], 5, 0⟩ = .ok [1, 2, 3] ∧
    readAllFrom ⟨false, [1, 2, 3], 5, 2⟩ = .ok [3] :=
  C8_seek_then_read ⟨"/r"⟩ "/tmp" ⟨false⟩ (emptyFS.setNode "/r/x" (.file [1, 2, 3] 5 true))
    "x" ⟨⟨false, [1, 2, 3], 5, 0⟩, "x", 5⟩ 2 (by decide) (by decide) (by decide)

/-- Claim C6: path translation is the pure function of the name and the
configured root given by `localNameSpec`, written from the spec's words:
an empty root joins the name under the platform temporary directory,
otherwise the name (slash-converted) is joined under the slash-converted
root; no disk state is consulted (neither function receives one). -/
theorem C6_path_translation (c : LocalCacher) (tmpDir name : String) :
    c.localName tmpDir name = localNameSpec c.Root tmpDir name := by
  unfold LocalCacher.localName localNameSpec
  by_cases h : c.Root = "" <;> simp [h]

end Goproxy
